import Mathlib

/-!
Verification of the concurrent build orchestrator (`src/main.rs`).

The program walks a dependency graph of named build targets.  `SharedMake::make_target`
recursively expands the graph from a root target: it memoizes one shared completion
handle per target name in the `futures` map, spawns one concurrent execution unit per
newly seen target, and each unit awaits all of its dependencies' handles before invoking
the external recipe (`make_individual_dependency`).

Shallow embedding:
* `TargetName`, `TargetGraph` model the parsed graph (an insertion-ordered map from a
  target to its ordered list of direct dependencies).
* `makeTargetFuel` models `SharedMake::make_target`.  The Rust function runs
  synchronously on one thread (only the spawned unit bodies are concurrent; they never
  touch the `futures` map), so it is embedded as explicit state passing over `MakeState`
  (the `futures` map, the spawned units, and an event trace recording cache lookups,
  unit spawns and cache insertions in order).  Unbounded recursion (a cyclic graph) is
  modelled with fuel: divergence is `.error .outOfFuel` at every fuel bound.  The Rust
  `.expect("Internal error: Unexpectedly missing a target")` panic is `.error .missingTarget`.
* `SchedStep`/`Exec` model the concurrent execution of the spawned unit bodies: each
  body is `join_all(dependency_handles).await;` then the recipe, then completion of its
  own handle, so a unit may pass from `Queued` to `Running` (recipe start) only when
  every direct dependency's unit is `Completed`, and from `Running` to `Completed`
  (recipe returned, handle resolved) at any later point.
* `make_individual_dependency` models the recipe executor, parametrized by the
  process-spawn collaborator; `runMain` models `main` after the makefile has been
  parsed (option parsing and file reading are external collaborators).
-/

set_option maxHeartbeats 1000000
set_option linter.unusedVariables false

/-- Build-target identifier: the Rust newtype `TargetName(String)`. -/
structure TargetName where
  name : String
deriving DecidableEq, Repr

/-- Shorthand for building a `TargetName` from a string literal. -/
def tn (s : String) : TargetName := ⟨s⟩

/-- The parsed makefile graph: an insertion-ordered map from a target to the ordered
list of its direct dependencies (the Rust `TargetGraph` wrapping an insertion-ordered
map, of which `main` uses key lookup, `contains_key`, and first-key iteration). -/
abbrev TargetGraph := List (TargetName × List TargetName)

/-- Key lookup in the graph: `target_graph.0.get(target_name)`. -/
def getDeps (g : TargetGraph) (x : TargetName) : Option (List TargetName) :=
  match g with
  | [] => none
  | (m, ds) :: rest => if m = x then some ds else getDeps rest x

/-- `target_graph.0.contains_key(&target_name)`. -/
def containsKey (g : TargetGraph) (x : TargetName) : Bool :=
  (getDeps g x).isSome

/-- The dependency list of a target (empty when the target is absent). -/
def depsOf (g : TargetGraph) (x : TargetName) : List TargetName :=
  (getDeps g x).getD []

/-- `b` is a direct dependency of `a` in the graph. -/
def dependsOn (g : TargetGraph) (a b : TargetName) : Prop :=
  b ∈ depsOf g a

instance (g : TargetGraph) (a b : TargetName) : Decidable (dependsOn g a b) := by
  unfold dependsOn; infer_instance

/-- Reachability through the dependency relation (reflexive-transitive closure);
`Reaches g r x` means `x` is in the transitive dependency closure of `r` (root
included). -/
inductive Reaches (g : TargetGraph) : TargetName → TargetName → Prop where
  | refl (a : TargetName) : Reaches g a a
  | step {a b c : TargetName} : dependsOn g a b → Reaches g b c → Reaches g a c

/-- `x` lies on a dependency cycle: it reaches itself through at least one edge. -/
def OnCycle (g : TargetGraph) (x : TargetName) : Prop :=
  ∃ m, dependsOn g x m ∧ Reaches g m x

/-- `x` can reach some target that lies on a dependency cycle. -/
def ReachesCycle (g : TargetGraph) (x : TargetName) : Prop :=
  ∃ c, Reaches g x c ∧ OnCycle g c

/-- Every dependency mentioned in the graph is itself a key of the graph (the spec's
well-formedness assumption: the core assumes target names were validated before
scheduling starts). -/
def Closed (g : TargetGraph) : Prop :=
  ∀ p ∈ g, ∀ d ∈ p.2, containsKey g d = true

instance (g : TargetGraph) : Decidable (Closed g) := by
  unfold Closed; infer_instance

/-- Events observed on the requester thread while `make_target` runs: a cache lookup
for a name, the spawn of a new execution unit (`task::spawn`), and the insertion of
the unit's shared handle into the cache (`self.futures.insert`). -/
inductive ReqEvent where
  | lookup (t : TargetName)
  | spawn (t : TargetName)
  | insert (t : TargetName)
deriving DecidableEq, Repr

/-- One execution unit: the per-target record created exactly once per newly seen
target.  `id` is the identity of its shared completion handle (`SharedFuture`),
`deps` the dependency snapshot passed to the unit body, `depHandles` the handles of
the dependency units captured by the body (`dependency_handles`). -/
structure ExecUnit where
  id : Nat
  target : TargetName
  deps : List TargetName
  depHandles : List Nat
deriving DecidableEq, Repr

/-- The mutable state of `SharedMake` during graph expansion: `cache` is the
`futures: HashMap<TargetName, SharedFuture>` map (association list in insertion
order, shared handles identified by `Nat`), `units` the execution units spawned so
far, `nextId` the next fresh handle identity, `trace` the requester-thread event
trace. -/
structure MakeState where
  cache : List (TargetName × Nat)
  nextId : Nat
  units : List ExecUnit
  trace : List ReqEvent
deriving DecidableEq, Repr

/-- The keys currently present in the execution cache. -/
def cacheKeys (s : MakeState) : List TargetName :=
  s.cache.map Prod.fst

/-- First-match lookup in the cache (`self.futures.get(target_name)`). -/
def lookupCache (c : List (TargetName × Nat)) (x : TargetName) : Option Nat :=
  match c with
  | [] => none
  | (m, h) :: rest => if m = x then some h else lookupCache rest x

/-- The two abnormal ends of the (fuel-bounded) expansion: the
`expect("Internal error: Unexpectedly missing a target")` panic, and fuel
exhaustion, which models divergence of the unbounded recursion. -/
inductive MakeError where
  | missingTarget
  | outOfFuel
deriving DecidableEq, Repr

/-- Expansion of a dependency list: calls the supplied request function for each
direct dependency in declared order, threading the state — the Rust
`dependencies.iter().map(|t| self.make_target(t, depth + 1)).collect()`. -/
def makeDepsWith (mt : TargetName → MakeState → Except MakeError (Nat × MakeState)) :
    List TargetName → MakeState → Except MakeError (List Nat × MakeState)
  | [], s => .ok ([], s)
  | d :: rest, s =>
    match mt d s with
    | .error e => .error e
    | .ok (h, s1) =>
      match makeDepsWith mt rest s1 with
      | .error e => .error e
      | .ok (hs, s2) => .ok (h :: hs, s2)

/-- One unfolding of `SharedMake::make_target`, with `rec` standing for the recursive
call at the next depth.  Mirrors the source: cache hit returns the cached shared
handle; otherwise fetch the dependency list (panic if absent), recursively request
every dependency in declared order, then spawn the unit body (`task::spawn`) and
register the shared handle in the cache (`self.futures.insert`), returning it. -/
def makeTargetStep
    (rec : TargetName → MakeState → Except MakeError (Nat × MakeState))
    (g : TargetGraph) (x : TargetName) (depth : Nat) (s : MakeState) :
    Except MakeError (Nat × MakeState) :=
  let s0 : MakeState := { s with trace := s.trace ++ [.lookup x] }
  match lookupCache s0.cache x with
  | some h => .ok (h, s0)
  | none =>
    match getDeps g x with
    | none => .error .missingTarget
    | some dependencies =>
      match makeDepsWith rec dependencies s0 with
      | .error e => .error e
      | .ok (depHandles, s1) =>
        let uid := s1.nextId
        let s2 : MakeState :=
          { s1 with
            units := s1.units ++ [⟨uid, x, dependencies, depHandles⟩],
            nextId := uid + 1,
            trace := s1.trace ++ [.spawn x, .insert x] }
        let s3 : MakeState := { s2 with cache := s2.cache ++ [(x, uid)] }
        .ok (uid, s3)

/-- Fuel-bounded embedding of `SharedMake::make_target`.  `.error .outOfFuel` at a
given fuel means the recursion did not complete within that many nested calls;
`.error .outOfFuel` at every fuel is divergence of the source recursion. -/
def makeTargetFuel : Nat → TargetGraph → TargetName → Nat → MakeState → Except MakeError (Nat × MakeState)
  | 0, _, _, _, _ => .error .outOfFuel
  | f + 1, g, x, depth, s =>
    makeTargetStep (fun d s' => makeTargetFuel f g d (depth + 1) s') g x depth s

/-- The empty initial state of `SharedMake` built in `main`. -/
def initState : MakeState :=
  { cache := [], nextId := 0, units := [], trace := [] }

/-- The handle of a successful expansion (dummy on error). -/
def okHandle (r : Except MakeError (Nat × MakeState)) : Nat :=
  match r with
  | .ok p => p.1
  | .error _ => 0

/-- The final state of a successful expansion (dummy on error). -/
def okState (r : Except MakeError (Nat × MakeState)) : MakeState :=
  match r with
  | .ok p => p.2
  | .error _ => initState

/-- Sanity: the expansion of a two-target chain computes the expected state. -/
theorem sanity_chain_state :
    okState (makeTargetFuel 3 [(tn "A", [tn "B"]), (tn "B", [])] (tn "A") 0 initState) =
      { cache := [(tn "B", 0), (tn "A", 1)], nextId := 2,
        units := [⟨0, tn "B", [], []⟩, ⟨1, tn "A", [tn "B"], [0]⟩],
        trace := [.lookup (tn "A"), .lookup (tn "B"), .spawn (tn "B"), .insert (tn "B"),
          .spawn (tn "A"), .insert (tn "A")] } := by
  decide

/-- Sanity: a self-cycle exhausts its fuel. -/
theorem sanity_self_cycle :
    makeTargetFuel 9 [(tn "A", [tn "A"])] (tn "A") 0 initState = .error .outOfFuel := rfl

/-- What a completed external process reports back (`std::process::Output`): its exit
status and captured streams. -/
structure ProcessOutput where
  status : Int
  stdout : List String
  stderr : List String
deriving DecidableEq, Repr

/-- A process invocation: command name and argument vector, as handed to the
process-spawn collaborator (`Command::new(program).args(args)`). -/
structure Invocation where
  program : String
  args : List String
deriving DecidableEq, Repr

/-- Embedding of `make_individual_dependency`.  It builds the argument vector
`["-f", makefile, target]` followed by `-o dep` for each dependency in declared
order (the Rust `args.push` loop), invokes the spawn collaborator once with command
`make`, panics (`.expect("failed to execute process")`, modelled `none`) when the
launch fails, and otherwise discards the output (`let _ = ...`) — the spawned
process's exit status is never inspected.  The model returns the performed
invocation as the observable effect. -/
def make_individual_dependency
    (spawner : Invocation → Option ProcessOutput)
    (dependencies : List TargetName) (makefile_path : String)
    (target_name : TargetName) : Option Invocation :=
  let args := dependencies.foldl (fun acc d => acc ++ ["-o", d.name])
    ["-f", makefile_path, target_name.name]
  match spawner ⟨"make", args⟩ with
  | none => none
  | some _output => some ⟨"make", args⟩

/-- The post-parse command-line options read by `main`:
`--makefile`, `--target`, `--print-graph`. -/
structure Options where
  makefile_path : Option String
  target : Option String
  print_graph : Bool
deriving DecidableEq, Repr

/-- A JSON value (only the forms the graph serialization produces). -/
inductive Json where
  | str (s : String)
  | arr (elems : List Json)
  | obj (fields : List (String × Json))

/-- Modelled from the spec: the serde serialization of `TargetGraph` lives in
`parse.rs`, which is not among the provided sources.  Per the spec, the graph
serializes as a JSON object whose keys are the target names and whose values are the
ordered arrays of their dependency names. -/
def graphJson (g : TargetGraph) : Json :=
  .obj (g.map (fun p => (p.1.name, .arr (p.2.map (fun d => Json.str d.name)))))

/-- The observable outcome of one run of `main` (after the makefile was read and
parsed): the process exit code, diagnostics printed to the error stream, the JSON
graph printed to standard output (for `--print-graph`), the execution units created
(each invokes its recipe exactly once when executed), and the reported
`Built N targets` count (`shared_make.futures.len()`). -/
structure Outcome where
  exitCode : Nat
  stderrLines : List String
  printedGraph : Option Json
  unitsCreated : List ExecUnit
  targetsBuilt : Option Nat

/-- Embedding of `main` after the makefile has been read and parsed into `g`
(reading and parsing are external collaborators).  Mirrors the source order:
`--print-graph` prints the serialized graph and exits 0 before anything is built;
then the default target (first key) is resolved, exiting 1 on an empty graph; then
an explicitly requested target absent from the graph exits 1; otherwise the graph is
expanded from the chosen root and the root handle is awaited (`block_on`), and the
built-target count `futures.len()` is reported.  A panic inside the expansion aborts
the process (exit code 101, no units). -/
def runMain (fuel : Nat) (g : TargetGraph) (opts : Options) : Outcome :=
  if opts.print_graph then
    { exitCode := 0, stderrLines := [], printedGraph := some (graphJson g),
      unitsCreated := [], targetsBuilt := none }
  else
    match g with
    | [] =>
      { exitCode := 1, stderrLines := ["No target specified and no default target available"],
        printedGraph := none, unitsCreated := [], targetsBuilt := none }
    | (defaultName, _) :: _ =>
      match opts.target with
      | some t =>
        if containsKey g ⟨t⟩ then
          match makeTargetFuel fuel g ⟨t⟩ 0 initState with
          | .error _ =>
            { exitCode := 101, stderrLines := [], printedGraph := none,
              unitsCreated := [], targetsBuilt := none }
          | .ok (_, s) =>
            { exitCode := 0, stderrLines := [], printedGraph := none,
              unitsCreated := s.units, targetsBuilt := some s.cache.length }
        else
          { exitCode := 1, stderrLines := ["Unknown target specified: " ++ t],
            printedGraph := none, unitsCreated := [], targetsBuilt := none }
      | none =>
        match makeTargetFuel fuel g defaultName 0 initState with
        | .error _ =>
          { exitCode := 101, stderrLines := [], printedGraph := none,
            unitsCreated := [], targetsBuilt := none }
        | .ok (_, s) =>
          { exitCode := 0, stderrLines := [], printedGraph := none,
            unitsCreated := s.units, targetsBuilt := some s.cache.length }

/-- Lifecycle phase of an execution unit: created but recipe not yet started
(`Queued`), recipe running (`Running`), recipe returned and handle resolved
(`Completed`). -/
inductive Phase where
  | queued
  | running
  | completed
deriving DecidableEq, Repr

/-- Observable events of the concurrent execution of the unit bodies: the start of a
target's recipe invocation, and the completion of a target's unit (its recipe
returned with the given exit status and its shared handle resolved). -/
inductive SEvent where
  | recipeStart (t : TargetName)
  | complete (t : TargetName) (status : Int)
deriving DecidableEq, Repr

/-- Point update of a phase assignment. -/
def setPhase (σ : TargetName → Phase) (t : TargetName) (p : Phase) : TargetName → Phase :=
  fun x => if x = t then p else σ x

/-- All units start queued: the spawned bodies first block on
`join_all(dependency_handles).await`. -/
def allQueued : TargetName → Phase := fun _ => .queued

/-- One scheduling step of the spawned unit bodies.  A unit's body is
`join_all(dependency_handles).await; make_individual_dependency(...); (handle resolves)`,
so a unit may start its recipe only when every direct dependency's unit has
completed, and a running unit may complete (with an arbitrary recipe exit status —
the body places no constraint on it) at any later point.  Units run concurrently:
any enabled unit may step next. -/
inductive SchedStep (units : List ExecUnit) :
    (TargetName → Phase) → SEvent → (TargetName → Phase) → Prop where
  | start (σ : TargetName → Phase) (u : ExecUnit) (hu : u ∈ units)
      (hq : σ u.target = .queued)
      (hdeps : ∀ d ∈ u.deps, σ d = .completed) :
      SchedStep units σ (.recipeStart u.target) (setPhase σ u.target .running)
  | finish (σ : TargetName → Phase) (u : ExecUnit) (hu : u ∈ units)
      (hr : σ u.target = .running) (status : Int) :
      SchedStep units σ (.complete u.target status) (setPhase σ u.target .completed)

/-- A (finite) concurrent execution: a sequence of scheduling steps with its event
trace. -/
inductive Exec (units : List ExecUnit) :
    (TargetName → Phase) → List SEvent → (TargetName → Phase) → Prop where
  | nil (σ : TargetName → Phase) : Exec units σ [] σ
  | cons {σ σ' σ'' : TargetName → Phase} {e : SEvent} {es : List SEvent} :
      SchedStep units σ e σ' → Exec units σ' es σ'' → Exec units σ (e :: es) σ''

/-- Number of recipe invocations of target `t` in an execution trace. -/
def startCount (t : TargetName) : List SEvent → Nat
  | [] => 0
  | .recipeStart u :: es => (if u = t then 1 else 0) + startCount t es
  | .complete _ _ :: es => startCount t es

/-- Rewrite every recipe exit status in a trace (used to state that statuses are
never inspected). -/
def mapStatus (φ : Int → Int) : SEvent → SEvent
  | .recipeStart t => .recipeStart t
  | .complete t st => .complete t (φ st)

theorem lookupCache_cons (m : TargetName) (v : Nat) (rest : List (TargetName × Nat))
    (x : TargetName) :
    lookupCache ((m, v) :: rest) x = if m = x then some v else lookupCache rest x := rfl

theorem getDeps_cons (m : TargetName) (mds : List TargetName) (rest : TargetGraph)
    (x : TargetName) :
    getDeps ((m, mds) :: rest) x = if m = x then some mds else getDeps rest x := rfl

theorem lookupCache_append_some {c : List (TargetName × Nat)} {x : TargetName} {h : Nat}
    (hl : lookupCache c x = some h) (e : List (TargetName × Nat)) :
    lookupCache (c ++ e) x = some h := by
  induction c with
  | nil => simp [lookupCache] at hl
  | cons p rest ih =>
    obtain ⟨m, v⟩ := p
    by_cases hm : m = x
    · rw [lookupCache_cons, if_pos hm] at hl
      rw [List.cons_append, lookupCache_cons, if_pos hm]
      exact hl
    · rw [lookupCache_cons, if_neg hm] at hl
      rw [List.cons_append, lookupCache_cons, if_neg hm]
      exact ih hl

theorem lookupCache_eq_none_iff {c : List (TargetName × Nat)} {x : TargetName} :
    lookupCache c x = none ↔ x ∉ c.map Prod.fst := by
  induction c with
  | nil => simp [lookupCache]
  | cons p rest ih =>
    obtain ⟨m, v⟩ := p
    by_cases hm : m = x
    · simp [lookupCache, hm]
    · simp [lookupCache, hm, ih, Ne.symm hm]

theorem lookupCache_isSome_iff {c : List (TargetName × Nat)} {x : TargetName} :
    (∃ h, lookupCache c x = some h) ↔ x ∈ c.map Prod.fst := by
  constructor
  · intro ⟨h, hl⟩
    by_contra hmem
    rw [← lookupCache_eq_none_iff] at hmem
    rw [hmem] at hl
    exact Option.noConfusion hl
  · intro hmem
    cases hl : lookupCache c x with
    | some h => exact ⟨h, rfl⟩
    | none => exact absurd (lookupCache_eq_none_iff.mp hl) (not_not_intro hmem)

theorem lookupCache_append_single {c : List (TargetName × Nat)} {x : TargetName}
    (hmem : x ∉ c.map Prod.fst) (h : Nat) :
    lookupCache (c ++ [(x, h)]) x = some h := by
  induction c with
  | nil => simp [lookupCache]
  | cons p rest ih =>
    obtain ⟨m, v⟩ := p
    simp only [List.map_cons, List.mem_cons, not_or] at hmem
    rw [List.cons_append, lookupCache_cons, if_neg (Ne.symm hmem.1)]
    exact ih hmem.2

theorem getDeps_mem {g : TargetGraph} {x : TargetName} {ds : List TargetName}
    (h : getDeps g x = some ds) : (x, ds) ∈ g := by
  induction g with
  | nil => simp [getDeps] at h
  | cons p rest ih =>
    obtain ⟨m, mds⟩ := p
    by_cases hm : m = x
    · subst hm
      rw [getDeps_cons, if_pos rfl] at h
      cases h
      exact List.mem_cons_self _ _
    · rw [getDeps_cons, if_neg hm] at h
      exact List.mem_cons_of_mem _ (ih h)

theorem dependsOn_getDeps {g : TargetGraph} {a b : TargetName} (h : dependsOn g a b) :
    ∃ ds, getDeps g a = some ds ∧ b ∈ ds := by
  unfold dependsOn depsOf at h
  cases hd : getDeps g a with
  | none => rw [hd] at h; simp at h
  | some ds => rw [hd] at h; exact ⟨ds, rfl, h⟩

theorem Reaches.trans {g : TargetGraph} {a b c : TargetName}
    (h1 : Reaches g a b) (h2 : Reaches g b c) : Reaches g a c := by
  induction h1 with
  | refl => exact h2
  | step hd _ ih => exact .step hd (ih h2)

theorem reachesCycle_of_onCycle {g : TargetGraph} {x : TargetName} (h : OnCycle g x) :
    ReachesCycle g x := ⟨x, .refl x, h⟩

theorem reachesCycle_of_reaches {g : TargetGraph} {a b : TargetName}
    (hr : Reaches g a b) (h : ReachesCycle g b) : ReachesCycle g a := by
  obtain ⟨c, hbc, hc⟩ := h
  exact ⟨c, hr.trans hbc, hc⟩

/-- A target that reaches a cycle has a direct dependency that reaches a cycle. -/
theorem reachesCycle_dep {g : TargetGraph} {x : TargetName} (h : ReachesCycle g x) :
    ∃ d, dependsOn g x d ∧ ReachesCycle g d := by
  obtain ⟨c, hxc, hc⟩ := h
  cases hxc with
  | refl =>
    obtain ⟨m, hdep, hm⟩ := hc
    exact ⟨m, hdep, ⟨x, hm, ⟨m, hdep, hm⟩⟩⟩
  | step hd hr => exact ⟨_, hd, ⟨c, hr, hc⟩⟩

/-- State extension: everything already in the `SharedMake` state stays, in place;
the expansion only appends. -/
def Grows (s s' : MakeState) : Prop :=
  (∃ e, s'.cache = s.cache ++ e) ∧ (∃ e, s'.units = s.units ++ e) ∧
    (∃ e, s'.trace = s.trace ++ e)

theorem Grows.rfl (s : MakeState) : Grows s s :=
  ⟨⟨[], by simp⟩, ⟨[], by simp⟩, ⟨[], by simp⟩⟩

theorem Grows.chain {s s' s'' : MakeState} (h1 : Grows s s') (h2 : Grows s' s'') :
    Grows s s'' := by
  obtain ⟨⟨c1, hc1⟩, ⟨u1, hu1⟩, ⟨t1, ht1⟩⟩ := h1
  obtain ⟨⟨c2, hc2⟩, ⟨u2, hu2⟩, ⟨t2, ht2⟩⟩ := h2
  exact ⟨⟨c1 ++ c2, by simp [hc2, hc1]⟩, ⟨u1 ++ u2, by simp [hu2, hu1]⟩,
    ⟨t1 ++ t2, by simp [ht2, ht1]⟩⟩

theorem cacheKeys_mono {s s' : MakeState} (h : Grows s s') {k : TargetName}
    (hk : k ∈ cacheKeys s) : k ∈ cacheKeys s' := by
  obtain ⟨⟨c, hcache⟩, hrest1, hrest2⟩ := h
  unfold cacheKeys at hk ⊢
  rw [hcache]
  simp only [List.map_append, List.mem_append]
  exact Or.inl hk

theorem makeDepsWith_grows {mt : TargetName → MakeState → Except MakeError (Nat × MakeState)}
    (hmt : ∀ d s r, mt d s = .ok r → Grows s r.2) :
    ∀ ds s r, makeDepsWith mt ds s = .ok r → Grows s r.2 := by
  intro ds
  induction ds with
  | nil =>
    intro s r h
    simp only [makeDepsWith] at h
    cases h
    exact Grows.rfl s
  | cons d rest ih =>
    intro s r h
    simp only [makeDepsWith] at h
    split at h
    · exact absurd h (by simp)
    · rename_i h1 s1 hd
      split at h
      · exact absurd h (by simp)
      · rename_i hs s2 hrest
        cases h
        exact (hmt d s _ hd).chain (ih s1 (hs, s2) hrest)

theorem makeTargetFuel_grows :
    ∀ (f : Nat) (g : TargetGraph) (x : TargetName) (depth : Nat) (s : MakeState) r,
      makeTargetFuel f g x depth s = .ok r → Grows s r.2 := by
  intro f
  induction f with
  | zero => intro g x depth s r h; exact absurd h (by simp [makeTargetFuel])
  | succ f ih =>
    intro g x depth s r h
    simp only [makeTargetFuel, makeTargetStep] at h
    split at h
    · rename_i h0 hl
      cases h
      exact ⟨⟨[], by simp⟩, ⟨[], by simp⟩, ⟨[.lookup x], by simp⟩⟩
    · rename_i hl
      split at h
      · exact absurd h (by simp)
      · rename_i dependencies hg
        split at h
        · exact absurd h (by simp)
        · rename_i depHandles s1 hdeps
          cases h
          have hg0 : Grows s { s with trace := s.trace ++ [.lookup x] } :=
            ⟨⟨[], by simp⟩, ⟨[], by simp⟩, ⟨[.lookup x], by simp⟩⟩
          refine Grows.chain hg0 ?_
          refine Grows.chain
            (makeDepsWith_grows (fun d s0 r0 h0 => ih g d (depth + 1) s0 r0 h0) _ _ _ hdeps) ?_
          exact ⟨⟨[(x, s1.nextId)], by simp⟩, ⟨[⟨s1.nextId, x, dependencies, depHandles⟩], by simp⟩,
            ⟨[.spawn x, .insert x], by simp⟩⟩

theorem makeDepsWith_preserve {mt : TargetName → MakeState → Except MakeError (Nat × MakeState)}
    {P : MakeState → Prop}
    (hpres : ∀ d s h s', P s → mt d s = .ok (h, s') → P s') :
    ∀ ds s hs s', P s → makeDepsWith mt ds s = .ok (hs, s') → P s' := by
  intro ds
  induction ds with
  | nil =>
    intro s hs s' hP h
    simp only [makeDepsWith] at h
    cases h
    exact hP
  | cons d rest ih =>
    intro s hs s' hP h
    simp only [makeDepsWith] at h
    split at h
    · exact absurd h (by simp)
    · rename_i h1 s1 hd
      split at h
      · exact absurd h (by simp)
      · rename_i hs2 s2 hrest
        cases h
        exact ih s1 _ _ (hpres d s h1 s1 hP hd) hrest

theorem makeDepsWith_origin {mt : TargetName → MakeState → Except MakeError (Nat × MakeState)}
    {R : TargetName → TargetName → Prop}
    (hmt : ∀ d s h s', mt d s = .ok (h, s') → ∀ k, k ∈ cacheKeys s' → k ∈ cacheKeys s ∨ R d k) :
    ∀ ds s hs s', makeDepsWith mt ds s = .ok (hs, s') →
      ∀ k, k ∈ cacheKeys s' → k ∈ cacheKeys s ∨ ∃ d ∈ ds, R d k := by
  intro ds
  induction ds with
  | nil =>
    intro s hs s' h k hk
    simp only [makeDepsWith] at h
    cases h
    exact Or.inl hk
  | cons d rest ih =>
    intro s hs s' h k hk
    simp only [makeDepsWith] at h
    split at h
    · exact absurd h (by simp)
    · rename_i h1 s1 hd
      split at h
      · exact absurd h (by simp)
      · rename_i hs2 s2 hrest
        cases h
        rcases ih s1 _ _ hrest k hk with hk1 | ⟨d', hd', hR⟩
        · rcases hmt d s h1 s1 hd k hk1 with hk0 | hR
          · exact Or.inl hk0
          · exact Or.inr ⟨d, List.mem_cons_self d rest, hR⟩
        · exact Or.inr ⟨d', List.mem_cons_of_mem d hd', hR⟩

theorem makeDepsWith_fail {mt : TargetName → MakeState → Except MakeError (Nat × MakeState)}
    {P : MakeState → Prop} {B : TargetName → Prop}
    (hpres : ∀ d s h s', P s → mt d s = .ok (h, s') → P s')
    (hfail : ∀ d s, P s → B d → ∀ r, mt d s ≠ .ok r) :
    ∀ ds s, P s → (∃ d ∈ ds, B d) → ∀ r, makeDepsWith mt ds s ≠ .ok r := by
  intro ds
  induction ds with
  | nil =>
    intro s hP hbad r h
    obtain ⟨d, hd, _⟩ := hbad
    exact absurd hd (List.not_mem_nil d)
  | cons d rest ih =>
    intro s hP hbad r h
    obtain ⟨d', hd', hb⟩ := hbad
    simp only [makeDepsWith] at h
    split at h
    · exact absurd h (by simp)
    · rename_i h1 s1 hd
      split at h
      · exact absurd h (by simp)
      · rename_i hs2 s2 hrest
        rcases List.mem_cons.mp hd' with rfl | hmem
        · exact hfail d' s hP hb (h1, s1) hd
        · exact ih s1 (hpres d s h1 s1 hP hd) ⟨d', hmem, hb⟩ (hs2, s2) hrest

/-- Every cache key is free of paths into dependency cycles.  This是 the invariant
that makes the expansion's memoization sound: only fully-expanded targets ever enter
the cache. -/
def CacheSafe (g : TargetGraph) (s : MakeState) : Prop :=
  ∀ k ∈ cacheKeys s, ¬ ReachesCycle g k

theorem makeTargetFuel_origin :
    ∀ (f : Nat) (g : TargetGraph) (x : TargetName) (depth : Nat) (s : MakeState)
      (h : Nat) (s' : MakeState),
      makeTargetFuel f g x depth s = .ok (h, s') →
      ∀ k, k ∈ cacheKeys s' → k ∈ cacheKeys s ∨ Reaches g x k := by
  intro f
  induction f with
  | zero => intro g x depth s h s' hh; exact absurd hh (by simp [makeTargetFuel])
  | succ f ih =>
    intro g x depth s h s' hh k hk
    simp only [makeTargetFuel, makeTargetStep] at hh
    split at hh
    · rename_i h0 hl
      cases hh
      exact Or.inl hk
    · rename_i hl
      split at hh
      · exact absurd hh (by simp)
      · rename_i dependencies hg
        split at hh
        · exact absurd hh (by simp)
        · rename_i depHandles s1 hdeps
          cases hh
          have hk3 : k ∈ cacheKeys s1 ∨ k = x := by
            unfold cacheKeys at hk
            simp only [List.map_append, List.mem_append, List.map_cons, List.map_nil,
              List.mem_singleton] at hk
            exact hk
          rcases hk3 with hk1 | rfl
          · rcases makeDepsWith_origin (R := fun d k => Reaches g d k)
              (fun d s0 h0 s0' hh0 => ih g d (depth + 1) s0 h0 s0' hh0)
              dependencies _ _ _ hdeps k hk1 with hk0 | ⟨d', hd', hR⟩
            · exact Or.inl hk0
            · refine Or.inr (Reaches.step ?_ hR)
              unfold dependsOn depsOf
              rw [hg]
              exact hd'
          · exact Or.inr (Reaches.refl k)

theorem makeTargetFuel_mem {f : Nat} {g : TargetGraph} {x : TargetName} {depth : Nat}
    {s : MakeState} {h : Nat} {s' : MakeState}
    (hok : makeTargetFuel f g x depth s = .ok (h, s')) : x ∈ cacheKeys s' := by
  cases f with
  | zero => exact absurd hok (by simp [makeTargetFuel])
  | succ f =>
    simp only [makeTargetFuel, makeTargetStep] at hok
    split at hok
    · rename_i h0 hl
      cases hok
      exact lookupCache_isSome_iff.mp ⟨_, hl⟩
    · rename_i hl
      split at hok
      · exact absurd hok (by simp)
      · rename_i dependencies hg
        split at hok
        · exact absurd hok (by simp)
        · rename_i depHandles s1 hdeps
          cases hok
          unfold cacheKeys
          simp

theorem makeTargetFuel_safe :
    ∀ (f : Nat) (g : TargetGraph) (x : TargetName) (depth : Nat) (s : MakeState),
      (CacheSafe g s → ReachesCycle g x → ∀ r, makeTargetFuel f g x depth s ≠ .ok r) ∧
      (CacheSafe g s → ∀ h s', makeTargetFuel f g x depth s = .ok (h, s') → CacheSafe g s') := by
  intro f
  induction f with
  | zero =>
    intro g x depth s
    exact ⟨fun _ _ r h => absurd h (by simp [makeTargetFuel]),
      fun _ h s' hh => absurd hh (by simp [makeTargetFuel])⟩
  | succ f ih =>
    intro g x depth s
    have hA : CacheSafe g s → ReachesCycle g x → ∀ r, makeTargetFuel (f + 1) g x depth s ≠ .ok r := by
      intro hsafe hrc r h
      simp only [makeTargetFuel, makeTargetStep] at h
      split at h
      · rename_i h0 hl
        exact hsafe x (lookupCache_isSome_iff.mp ⟨h0, hl⟩) hrc
      · rename_i hl
        split at h
        · exact absurd h (by simp)
        · rename_i dependencies hg
          split at h
          · exact absurd h (by simp)
          · rename_i depHandles s1 hdeps
            obtain ⟨d, hdep, hdrc⟩ := reachesCycle_dep hrc
            obtain ⟨ds0, hds0, hmem0⟩ := dependsOn_getDeps hdep
            rw [hg] at hds0
            cases hds0
            refine makeDepsWith_fail (P := CacheSafe g) (B := ReachesCycle g)
              (fun d0 s0 h0 s0' hP hh0 => (ih g d0 (depth + 1) s0).2 hP h0 s0' hh0)
              (fun d0 s0 hP hb r0 => (ih g d0 (depth + 1) s0).1 hP hb r0)
              dependencies _ ?_ ⟨d, hmem0, hdrc⟩ (depHandles, s1) hdeps
            exact fun k hk => hsafe k hk
    refine ⟨hA, ?_⟩
    intro hsafe h s' hok
    have hok0 := hok
    simp only [makeTargetFuel, makeTargetStep] at hok
    split at hok
    · rename_i h0 hl
      cases hok
      exact fun k hk => hsafe k hk
    · rename_i hl
      split at hok
      · exact absurd hok (by simp)
      · rename_i dependencies hg
        split at hok
        · exact absurd hok (by simp)
        · rename_i depHandles s1 hdeps
          cases hok
          have hsafe1 : CacheSafe g s1 := by
            refine makeDepsWith_preserve (P := CacheSafe g)
              (fun d0 s0 h0 s0' hP hh0 => (ih g d0 (depth + 1) s0).2 hP h0 s0' hh0)
              dependencies _ _ _ ?_ hdeps
            exact fun k hk => hsafe k hk
          have hnrc : ¬ ReachesCycle g x := fun hrc => hA hsafe hrc _ hok0
          intro k hk
          have hk3 : k ∈ cacheKeys s1 ∨ k = x := by
            unfold cacheKeys at hk
            simp only [List.map_append, List.mem_append, List.map_cons, List.map_nil,
              List.mem_singleton] at hk
            exact hk
          rcases hk3 with hk1 | rfl
          · exact hsafe1 k hk1
          · exact hnrc

theorem makeDepsWith_no_missing {mt : TargetName → MakeState → Except MakeError (Nat × MakeState)}
    {ds : List TargetName}
    (hmt : ∀ d ∈ ds, ∀ s, mt d s ≠ .error .missingTarget) :
    ∀ s, makeDepsWith mt ds s ≠ .error .missingTarget := by
  induction ds with
  | nil => intro s h; simp [makeDepsWith] at h
  | cons d rest ih =>
    intro s h
    simp only [makeDepsWith] at h
    split at h
    · rename_i e hd
      cases h
      exact hmt d (List.mem_cons_self d rest) s hd
    · rename_i h1 s1 hd
      split at h
      · rename_i e hrest
        cases h
        exact ih (fun d0 hd0 s0 => hmt d0 (List.mem_cons_of_mem d hd0) s0) s1 hrest
      · exact absurd h (by simp)

theorem makeTargetFuel_no_missing :
    ∀ (f : Nat) (g : TargetGraph), Closed g →
      ∀ (x : TargetName) (depth : Nat) (s : MakeState), containsKey g x = true →
        makeTargetFuel f g x depth s ≠ .error .missingTarget := by
  intro f
  induction f with
  | zero => intro g hcl x depth s hk h; simp [makeTargetFuel] at h
  | succ f ih =>
    intro g hcl x depth s hk h
    simp only [makeTargetFuel, makeTargetStep] at h
    split at h
    · exact absurd h (by simp)
    · rename_i hl
      split at h
      · rename_i hg
        unfold containsKey at hk
        rw [hg] at hk
        simp at hk
      · rename_i dependencies hg
        split at h
        · rename_i e hdeps
          cases h
          exact makeDepsWith_no_missing
            (fun d hd s0 => ih g hcl d (depth + 1) s0 (hcl (x, dependencies) (getDeps_mem hg) d hd))
            _ hdeps
        · exact absurd h (by simp)

/-- On a graph whose expansion reaches a dependency cycle, `make_target` never
completes: the recursion exhausts every fuel bound (divergence of the source's
unbounded recursion). -/
theorem makeTargetFuel_outOfFuel {g : TargetGraph} (hcl : Closed g) :
    ∀ (f : Nat) (x : TargetName) (depth : Nat) (s : MakeState),
      CacheSafe g s → ReachesCycle g x →
      makeTargetFuel f g x depth s = .error .outOfFuel := by
  intro f x depth s hsafe hrc
  cases hres : makeTargetFuel f g x depth s with
  | ok r => exact absurd hres ((makeTargetFuel_safe f g x depth s).1 hsafe hrc r)
  | error e =>
    cases e with
    | outOfFuel => rfl
    | missingTarget =>
      obtain ⟨d, hdep, _⟩ := reachesCycle_dep hrc
      obtain ⟨ds0, hds0, _⟩ := dependsOn_getDeps hdep
      have hck : containsKey g x = true := by
        unfold containsKey
        rw [hds0]
        rfl
      exact absurd hres (makeTargetFuel_no_missing f g hcl x depth s hck)

/-- A successful request leaves its target's shared handle in the cache, and the
returned handle is exactly the cached one. -/
theorem makeTargetFuel_handle {f : Nat} {g : TargetGraph} {x : TargetName} {depth : Nat}
    {s : MakeState} {h : Nat} {s' : MakeState}
    (hsafe : CacheSafe g s)
    (hok : makeTargetFuel f g x depth s = .ok (h, s')) :
    lookupCache s'.cache x = some h := by
  cases f with
  | zero => exact absurd hok (by simp [makeTargetFuel])
  | succ f =>
    have hok0 := hok
    simp only [makeTargetFuel, makeTargetStep] at hok
    split at hok
    · rename_i h0 hl
      cases hok
      exact hl
    · rename_i hl
      split at hok
      · exact absurd hok (by simp)
      · rename_i dependencies hg
        split at hok
        · exact absurd hok (by simp)
        · rename_i depHandles s1 hdeps
          cases hok
          refine lookupCache_append_single ?_ _
          intro hx1
          rcases makeDepsWith_origin (R := fun d k => Reaches g d k)
              (fun d s0 h0 s0' hh0 => makeTargetFuel_origin f g d (depth + 1) s0 h0 s0' hh0)
              dependencies _ depHandles s1 hdeps x hx1 with hx0 | ⟨d, hd, hR⟩
          · exact (lookupCache_eq_none_iff.mp hl) hx0
          · have hdep : dependsOn g x d := by
              unfold dependsOn depsOf
              rw [hg]
              exact hd
            have hrc : ReachesCycle g x := ⟨x, Reaches.refl x, ⟨d, hdep, hR⟩⟩
            exact absurd hok0 ((makeTargetFuel_safe (f + 1) g x depth s).1 hsafe hrc _)

theorem makeDeps_fresh {f : Nat} {g : TargetGraph} {x : TargetName} {depth : Nat}
    {s0 : MakeState} {dependencies : List TargetName} {depHandles : List Nat} {s1 : MakeState}
    (hsafe : CacheSafe g s0)
    (hl : x ∉ cacheKeys s0)
    (hg : getDeps g x = some dependencies)
    (hdeps : makeDepsWith (fun d s' => makeTargetFuel f g d (depth + 1) s') dependencies s0 =
      .ok (depHandles, s1)) :
    x ∉ cacheKeys s1 := by
  intro hx1
  rcases makeDepsWith_origin (R := fun d k => Reaches g d k)
      (fun d sa h0 sb hh0 => makeTargetFuel_origin f g d (depth + 1) sa h0 sb hh0)
      dependencies _ _ _ hdeps x hx1 with hx0 | ⟨d, hd, hR⟩
  · exact hl hx0
  · have hdep : dependsOn g x d := by
      unfold dependsOn depsOf
      rw [hg]
      exact hd
    have hbad : ∃ d' ∈ dependencies, ReachesCycle g d' := by
      obtain ⟨d', hdep', hrc'⟩ := reachesCycle_dep ⟨x, Reaches.refl x, ⟨d, hdep, hR⟩⟩
      obtain ⟨ds0, hds0, hmem0⟩ := dependsOn_getDeps hdep'
      rw [hg] at hds0
      cases hds0
      exact ⟨d', hmem0, hrc'⟩
    obtain ⟨d', hmem', hrc'⟩ := hbad
    exact makeDepsWith_fail (P := CacheSafe g) (B := ReachesCycle g)
      (fun d0 sa h0 sb hP hh0 => (makeTargetFuel_safe f g d0 (depth + 1) sa).2 hP h0 sb hh0)
      (fun d0 sa hP hb r0 => (makeTargetFuel_safe f g d0 (depth + 1) sa).1 hP hb r0)
      dependencies s0 hsafe ⟨d', hmem', hrc'⟩ (depHandles, s1) hdeps

theorem makeDeps_members {f : Nat} {g : TargetGraph} {depth : Nat} :
    ∀ (ds : List TargetName) (s : MakeState) (hs : List Nat) (s' : MakeState),
      makeDepsWith (fun d s0 => makeTargetFuel f g d (depth + 1) s0) ds s = .ok (hs, s') →
      ∀ d ∈ ds, d ∈ cacheKeys s' := by
  intro ds
  induction ds with
  | nil => intro s hs s' h d hd; exact absurd hd (List.not_mem_nil d)
  | cons d0 rest ih =>
    intro s hs s' h d hd
    simp only [makeDepsWith] at h
    split at h
    · exact absurd h (by simp)
    · rename_i h1 s1 hd0
      split at h
      · exact absurd h (by simp)
      · rename_i hs2 s2 hrest
        cases h
        rcases List.mem_cons.mp hd with rfl | hmem
        · exact cacheKeys_mono (makeDepsWith_grows
            (fun d1 sa r1 hr1 => makeTargetFuel_grows f g d1 (depth + 1) sa r1 hr1)
            rest s1 _ hrest) (makeTargetFuel_mem hd0)
        · exact ih s1 _ _ hrest d hmem

theorem makeTargetFuel_trace_shape {f : Nat} {g : TargetGraph} {x : TargetName} {depth : Nat}
    {s : MakeState} {h : Nat} {s' : MakeState}
    (hok : makeTargetFuel f g x depth s = .ok (h, s')) :
    ∃ e, s'.trace = s.trace ++ ReqEvent.lookup x :: e := by
  cases f with
  | zero => exact absurd hok (by simp [makeTargetFuel])
  | succ f =>
    simp only [makeTargetFuel, makeTargetStep] at hok
    split at hok
    · rename_i h0 hl
      cases hok
      exact ⟨[], rfl⟩
    · rename_i hl
      split at hok
      · exact absurd hok (by simp)
      · rename_i dependencies hg
        split at hok
        · exact absurd hok (by simp)
        · rename_i depHandles s1 hdeps
          cases hok
          obtain ⟨hc, hu, ht⟩ := makeDepsWith_grows
            (fun d1 sa r1 hr1 => makeTargetFuel_grows f g d1 (depth + 1) sa r1 hr1)
            dependencies _ _ hdeps
          obtain ⟨e, he⟩ := ht
          refine ⟨e ++ [ReqEvent.spawn x, ReqEvent.insert x], ?_⟩
          show s1.trace ++ [ReqEvent.spawn x, ReqEvent.insert x] = _
          rw [he]
          simp

theorem makeDeps_trace {f : Nat} {g : TargetGraph} {depth : Nat} :
    ∀ (ds : List TargetName) (s : MakeState) (hs : List Nat) (s' : MakeState),
      makeDepsWith (fun d s0 => makeTargetFuel f g d (depth + 1) s0) ds s = .ok (hs, s') →
      ∃ e, s'.trace = s.trace ++ e ∧ List.Sublist (ds.map ReqEvent.lookup) e := by
  intro ds
  induction ds with
  | nil =>
    intro s hs s' h
    simp only [makeDepsWith] at h
    cases h
    exact ⟨[], by simp, List.nil_sublist []⟩
  | cons d0 rest ih =>
    intro s hs s' h
    simp only [makeDepsWith] at h
    split at h
    · exact absurd h (by simp)
    · rename_i h1 s1 hd0
      split at h
      · exact absurd h (by simp)
      · rename_i hs2 s2 hrest
        cases h
        obtain ⟨e1, he1⟩ := makeTargetFuel_trace_shape hd0
        obtain ⟨e2, he2, hsub2⟩ := ih s1 _ _ hrest
        refine ⟨ReqEvent.lookup d0 :: (e1 ++ e2), ?_, ?_⟩
        · rw [he2, he1]
          simp
        · exact List.Sublist.cons₂ _ (hsub2.trans (List.sublist_append_right e1 e2))

theorem append_singleton_eq_split {α : Type} {T : List α} {e : α} {a b : List α} {x : α}
    (h : T ++ [e] = a ++ x :: b) :
    (∃ b', T = a ++ x :: b' ∧ b = b' ++ [e]) ∨ (a = T ∧ x = e ∧ b = []) := by
  rcases List.eq_nil_or_concat b with rfl | ⟨b0, bl, rfl⟩
  · obtain ⟨h1, h2⟩ := List.append_inj' h rfl
    injection h2 with h3 h4
    exact Or.inr ⟨h1.symm, h3.symm, rfl⟩
  · have h' : T ++ [e] = (a ++ x :: b0) ++ [bl] := by
      rw [h]
      simp
    obtain ⟨h1, h2⟩ := List.append_inj' h' rfl
    injection h2 with h3 h4
    exact Or.inl ⟨b0, h1, by rw [h3, List.concat_eq_append]⟩

/-- The name inserted by an `insert` event (used to read the cache contents off the
trace). -/
def insertName : ReqEvent → Option TargetName
  | .insert t => some t
  | .lookup _ => none
  | .spawn _ => none

@[simp] theorem insertName_lookup (t : TargetName) : insertName (.lookup t) = none := rfl
@[simp] theorem insertName_spawn (t : TargetName) : insertName (.spawn t) = none := rfl
@[simp] theorem insertName_insert (t : TargetName) : insertName (.insert t) = some t := rfl

/-- Every spawn of a unit body is immediately followed, with no intervening
requester event, by the insertion of that unit's handle into the cache: spawning and
registration are atomic as far as any requester can observe. -/
def SpawnInsertProp (T : List ReqEvent) : Prop :=
  ∀ a t b, T = a ++ ReqEvent.spawn t :: b → ∃ b', b = ReqEvent.insert t :: b'

/-- When a target's handle is inserted into the cache, every direct dependency's
handle was already inserted, and the dependencies were looked up (requested) in
declared order beforehand. -/
def DepsBeforeProp (g : TargetGraph) (T : List ReqEvent) : Prop :=
  ∀ a t b, T = a ++ ReqEvent.insert t :: b →
    (∀ d ∈ depsOf g t, ReqEvent.insert d ∈ a) ∧
      List.Sublist ((depsOf g t).map ReqEvent.lookup) a

theorem spawnInsertProp_append_lookup {T : List ReqEvent} (h : SpawnInsertProp T)
    (x : TargetName) : SpawnInsertProp (T ++ [.lookup x]) := by
  intro a t b heq
  rcases append_singleton_eq_split heq with ⟨b', hT, hb⟩ | ⟨ha, hx, hb⟩
  · obtain ⟨b'', hb''⟩ := h a t b' hT
    exact ⟨b'' ++ [.lookup x], by rw [hb, hb'']; simp⟩
  · exact absurd hx (by simp)

theorem depsBeforeProp_append_lookup {g : TargetGraph} {T : List ReqEvent}
    (h : DepsBeforeProp g T) (x : TargetName) : DepsBeforeProp g (T ++ [.lookup x]) := by
  intro a t b heq
  rcases append_singleton_eq_split heq with ⟨b', hT, hb⟩ | ⟨ha, hx, hb⟩
  · exact h a t b' hT
  · exact absurd hx (by simp)

theorem spawnInsertProp_append_pair {T : List ReqEvent} (h : SpawnInsertProp T)
    (x : TargetName) : SpawnInsertProp (T ++ [.spawn x, .insert x]) := by
  intro a t b heq
  have heq2 : (T ++ [ReqEvent.spawn x]) ++ [ReqEvent.insert x] = a ++ ReqEvent.spawn t :: b := by
    rw [← heq]
    simp
  rcases append_singleton_eq_split heq2 with ⟨b', hT, hb⟩ | ⟨ha, hx, hb⟩
  · rcases append_singleton_eq_split hT with ⟨b'', hT2, hb2⟩ | ⟨ha2, hx2, hb2⟩
    · obtain ⟨b3, hb3⟩ := h a t b'' hT2
      refine ⟨b3 ++ [.spawn x] ++ [.insert x], ?_⟩
      rw [hb, hb2, hb3]
      simp
    · injection hx2 with hx3
      subst hx3
      exact ⟨[], by rw [hb, hb2]; simp⟩
  · exact absurd hx (by simp)

theorem depsBeforeProp_append_pair {g : TargetGraph} {T : List ReqEvent}
    (h : DepsBeforeProp g T) (x : TargetName)
    (hd : ∀ d ∈ depsOf g x, ReqEvent.insert d ∈ T)
    (hsub : List.Sublist ((depsOf g x).map ReqEvent.lookup) T) :
    DepsBeforeProp g (T ++ [.spawn x, .insert x]) := by
  intro a t b heq
  have heq2 : (T ++ [ReqEvent.spawn x]) ++ [ReqEvent.insert x] = a ++ ReqEvent.insert t :: b := by
    rw [← heq]
    simp
  rcases append_singleton_eq_split heq2 with ⟨b', hT, hb⟩ | ⟨ha, hx, hb⟩
  · rcases append_singleton_eq_split hT with ⟨b'', hT2, hb2⟩ | ⟨ha2, hx2, hb2⟩
    · exact h a t b'' hT2
    · exact absurd hx2 (by simp)
  · injection hx with hx3
    subst hx3
    subst ha
    constructor
    · intro d hdm
      exact List.mem_append_left _ (hd d hdm)
    · exact hsub.trans (List.sublist_append_left T [ReqEvent.spawn t])

/-- The full invariant of the `SharedMake` state maintained by the expansion:
the cache holds only cycle-free targets; keys are never duplicated; cache entries
and spawned units correspond one-to-one, in order; every unit's dependency snapshot
is its target's dependency list in the graph; every unit's dependencies are cached;
the trace's insert events are exactly the cache keys in order; spawn and insert are
adjacent; dependencies are requested and inserted before their dependent. -/
def SMInv (g : TargetGraph) (s : MakeState) : Prop :=
  CacheSafe g s ∧ (cacheKeys s).Nodup ∧
    s.cache = s.units.map (fun u => (u.target, u.id)) ∧
    (∀ u ∈ s.units, getDeps g u.target = some u.deps) ∧
    (∀ u ∈ s.units, ∀ d ∈ u.deps, ∃ h, lookupCache s.cache d = some h) ∧
    s.trace.filterMap insertName = cacheKeys s ∧
    SpawnInsertProp s.trace ∧ DepsBeforeProp g s.trace

theorem SMInv_initState (g : TargetGraph) : SMInv g initState := by
  refine ⟨?_, ?_, ?_, ?_, ?_, ?_, ?_, ?_⟩
  · intro k hk
    exact absurd hk (List.not_mem_nil k)
  · exact List.nodup_nil
  · rfl
  · intro u hu
    exact absurd hu (List.not_mem_nil u)
  · intro u hu
    exact absurd hu (List.not_mem_nil u)
  · rfl
  · intro a t b heq
    exact absurd heq (by simp [initState])
  · intro a t b heq
    exact absurd heq (by simp [initState])

theorem SMInv_append_lookup {g : TargetGraph} {s : MakeState} (h : SMInv g s) (x : TargetName) :
    SMInv g { s with trace := s.trace ++ [.lookup x] } := by
  obtain ⟨hsafe, hnd, hcu, hug, hudc, hio, hsi, hdb⟩ := h
  refine ⟨fun k hk => hsafe k hk, hnd, hcu, hug, hudc, ?_, ?_, ?_⟩
  · show (s.trace ++ [ReqEvent.lookup x]).filterMap insertName = cacheKeys s
    rw [List.filterMap_append]
    simp [hio]
  · exact spawnInsertProp_append_lookup hsi x
  · exact depsBeforeProp_append_lookup hdb x

theorem makeTargetFuel_SMInv :
    ∀ (f : Nat) (g : TargetGraph) (x : TargetName) (depth : Nat) (s : MakeState)
      (h : Nat) (s' : MakeState),
      SMInv g s → makeTargetFuel f g x depth s = .ok (h, s') → SMInv g s' := by
  intro f
  induction f with
  | zero => intro g x depth s h s' _ hok; exact absurd hok (by simp [makeTargetFuel])
  | succ f ih =>
    intro g x depth s h s' hInv hok
    have hok0 := hok
    simp only [makeTargetFuel, makeTargetStep] at hok
    split at hok
    · rename_i h0 hl
      cases hok
      exact SMInv_append_lookup hInv x
    · rename_i hl
      split at hok
      · exact absurd hok (by simp)
      · rename_i dependencies hg
        split at hok
        · exact absurd hok (by simp)
        · rename_i depHandles s1 hdeps
          cases hok
          have hInv0 : SMInv g { s with trace := s.trace ++ [.lookup x] } :=
            SMInv_append_lookup hInv x
          have hInv1 : SMInv g s1 :=
            makeDepsWith_preserve (P := SMInv g)
              (fun d0 sa h0 sb hP hh0 => ih g d0 (depth + 1) sa h0 sb hP hh0)
              dependencies _ _ _ hInv0 hdeps
          obtain ⟨hsafe1, hnd1, hcu1, hug1, hudc1, hio1, hsi1, hdb1⟩ := hInv1
          have hfresh : x ∉ cacheKeys s1 :=
            makeDeps_fresh hInv0.1 (lookupCache_eq_none_iff.mp hl) hg hdeps
          have hmems : ∀ d ∈ dependencies, d ∈ cacheKeys s1 :=
            makeDeps_members dependencies _ _ _ hdeps
          obtain ⟨eD, heD, hsubD⟩ := makeDeps_trace dependencies _ _ _ hdeps
          have hdepsOf : depsOf g x = dependencies := by
            unfold depsOf
            rw [hg]
            rfl
          refine ⟨?_, ?_, ?_, ?_, ?_, ?_, ?_, ?_⟩
          · exact (makeTargetFuel_safe (f + 1) g x depth s).2 hInv.1 _ _ hok0
          · show ((s1.cache ++ [(x, s1.nextId)]).map Prod.fst).Nodup
            rw [List.map_append, List.nodup_append]
            refine ⟨hnd1, ?_, ?_⟩
            · simp
            · intro a ha hb
              simp only [List.map_cons, List.map_nil, List.mem_singleton] at hb
              subst hb
              exact hfresh ha
          · show s1.cache ++ [(x, s1.nextId)] = _
            rw [List.map_append, ← hcu1]
            rfl
          · intro u hu
            rcases List.mem_append.mp hu with hu1 | hu2
            · exact hug1 u hu1
            · rw [List.mem_singleton] at hu2
              subst hu2
              exact hg
          · intro u hu d hd
            rcases List.mem_append.mp hu with hu1 | hu2
            · obtain ⟨h2, hl2⟩ := hudc1 u hu1 d hd
              exact ⟨h2, lookupCache_append_some hl2 _⟩
            · rw [List.mem_singleton] at hu2
              subst hu2
              obtain ⟨h2, hl2⟩ := lookupCache_isSome_iff.mpr (hmems d hd)
              exact ⟨h2, lookupCache_append_some hl2 _⟩
          · show (s1.trace ++ [ReqEvent.spawn x, ReqEvent.insert x]).filterMap insertName = _
            rw [List.filterMap_append, hio1]
            simp [cacheKeys]
          · exact spawnInsertProp_append_pair hsi1 x
          · refine depsBeforeProp_append_pair hdb1 x ?_ ?_
            · intro d hdm
              rw [hdepsOf] at hdm
              have hk : d ∈ cacheKeys s1 := hmems d hdm
              rw [← hio1] at hk
              obtain ⟨ev, hev, hevn⟩ := List.mem_filterMap.mp hk
              cases ev with
              | lookup t => simp at hevn
              | spawn t => simp at hevn
              | insert t =>
                simp only [insertName_insert, Option.some.injEq] at hevn
                subst hevn
                exact hev
            · rw [hdepsOf, heD]
              exact hsubD.trans (List.sublist_append_right _ eD)

/-- Is this event about target `t`? -/
def isEventOf (t : TargetName) (e : ReqEvent) : Bool :=
  e == ReqEvent.lookup t || e == ReqEvent.spawn t || e == ReqEvent.insert t

/-- The subtrace of events about target `t`. -/
def eventsOf (t : TargetName) (l : List ReqEvent) : List ReqEvent :=
  l.filter (isEventOf t)

/-- Every event in the list is a (cache-hit) lookup of `t`. -/
def lookupsOnly (t : TargetName) (l : List ReqEvent) : Prop :=
  ∀ e ∈ l, e = ReqEvent.lookup t

@[simp] theorem isEventOf_lookup_self (t : TargetName) :
    isEventOf t (ReqEvent.lookup t) = true := by simp [isEventOf]
@[simp] theorem isEventOf_spawn_self (t : TargetName) :
    isEventOf t (ReqEvent.spawn t) = true := by simp [isEventOf]
@[simp] theorem isEventOf_insert_self (t : TargetName) :
    isEventOf t (ReqEvent.insert t) = true := by simp [isEventOf]

theorem isEventOf_lookup_ne {t x : TargetName} (h : x ≠ t) :
    isEventOf t (ReqEvent.lookup x) = false := by simp [isEventOf, h]
theorem isEventOf_spawn_ne {t x : TargetName} (h : x ≠ t) :
    isEventOf t (ReqEvent.spawn x) = false := by simp [isEventOf, h]
theorem isEventOf_insert_ne {t x : TargetName} (h : x ≠ t) :
    isEventOf t (ReqEvent.insert x) = false := by simp [isEventOf, h]

@[simp] theorem eventsOf_nil (t : TargetName) : eventsOf t [] = [] := rfl

theorem eventsOf_append (t : TargetName) (l1 l2 : List ReqEvent) :
    eventsOf t (l1 ++ l2) = eventsOf t l1 ++ eventsOf t l2 := by
  simp [eventsOf]

theorem eventsOf_cons (t : TargetName) (e : ReqEvent) (l : List ReqEvent) :
    eventsOf t (e :: l) = if isEventOf t e then e :: eventsOf t l else eventsOf t l := by
  simp [eventsOf, List.filter_cons]

/-- Per-target shape of the trace segment a successful request appends, relative to
the cache before (`ks`) and after (`ks'`): an already-cached target sees only
further hit-lookups; a target inserted during the segment sees exactly one
miss-lookup, its spawn, its insertion, and then only hit-lookups; a target still
uncached sees nothing. -/
def TracePattern (ks ks' : List TargetName) (e : List ReqEvent) : Prop :=
  ∀ t, (t ∈ ks → lookupsOnly t (eventsOf t e)) ∧
    (t ∉ ks → t ∈ ks' → ∃ tail, eventsOf t e =
      ReqEvent.lookup t :: ReqEvent.spawn t :: ReqEvent.insert t :: tail ∧ lookupsOnly t tail) ∧
    (t ∉ ks' → eventsOf t e = [])

theorem tracePattern_nil (ks : List TargetName) : TracePattern ks ks [] := by
  intro t
  refine ⟨fun _ => ?_, fun hn hm => absurd hm hn, fun _ => rfl⟩
  intro e he
  exact absurd he (List.not_mem_nil e)

theorem tracePattern_comp {k0 k1 k2 : List TargetName} {e1 e2 : List ReqEvent}
    (h1 : TracePattern k0 k1 e1) (h2 : TracePattern k1 k2 e2)
    (m01 : ∀ t ∈ k0, t ∈ k1) (m12 : ∀ t ∈ k1, t ∈ k2) :
    TracePattern k0 k2 (e1 ++ e2) := by
  intro t
  obtain ⟨p1a, p1b, p1c⟩ := h1 t
  obtain ⟨p2a, p2b, p2c⟩ := h2 t
  have hev : eventsOf t (e1 ++ e2) = eventsOf t e1 ++ eventsOf t e2 := eventsOf_append t e1 e2
  refine ⟨?_, ?_, ?_⟩
  · intro ht0
    rw [hev]
    intro e he
    rcases List.mem_append.mp he with h | h
    · exact p1a ht0 e h
    · exact p2a (m01 t ht0) e h
  · intro hn0 hm2
    by_cases ht1 : t ∈ k1
    · obtain ⟨tail, hpat, hlo⟩ := p1b hn0 ht1
      refine ⟨tail ++ eventsOf t e2, ?_, ?_⟩
      · rw [hev, hpat]
        simp
      · intro e he
        rcases List.mem_append.mp he with h | h
        · exact hlo e h
        · exact p2a ht1 e h
    · obtain ⟨tail, hpat, hlo⟩ := p2b ht1 hm2
      refine ⟨tail, ?_, hlo⟩
      rw [hev, p1c ht1, hpat]
      simp
  · intro hn2
    have hn1 : t ∉ k1 := fun h => hn2 (m12 t h)
    rw [hev, p1c hn1, p2c hn2]
    simp

theorem lookupsOnly_eventsOf_single_lookup (t x : TargetName) :
    lookupsOnly t (eventsOf t [ReqEvent.lookup x]) := by
  intro e he
  obtain ⟨hmem, hbe⟩ := List.mem_filter.mp he
  rw [List.mem_singleton] at hmem
  subst hmem
  simp [isEventOf] at hbe
  rw [hbe]

theorem tracePattern_hit {ks : List TargetName} {x : TargetName} (hx : x ∈ ks) :
    TracePattern ks ks [ReqEvent.lookup x] := by
  intro t
  refine ⟨fun _ => lookupsOnly_eventsOf_single_lookup t x, fun hn hm => absurd hm hn, ?_⟩
  intro hn
  have hxt : x ≠ t := fun h => hn (h ▸ hx)
  rw [eventsOf_cons, isEventOf_lookup_ne hxt, if_neg (by simp)]
  rfl

theorem tracePattern_miss {ks k1 : List TargetName} {x : TargetName} {eD : List ReqEvent}
    (hx0 : x ∉ ks) (hx1 : x ∉ k1)
    (hp : TracePattern ks k1 eD) :
    TracePattern ks (k1 ++ [x])
      (ReqEvent.lookup x :: eD ++ [ReqEvent.spawn x, ReqEvent.insert x]) := by
  intro t
  obtain ⟨p1, p2, p3⟩ := hp t
  by_cases hxt : t = x
  · subst hxt
    refine ⟨fun h0 => absurd h0 hx0, ?_, ?_⟩
    · intro hn hm
      refine ⟨[], ?_, fun e he => absurd he (List.not_mem_nil e)⟩
      have heD : eventsOf t eD = [] := p3 hx1
      simp [eventsOf_cons, eventsOf_append, heD]
    · intro hn
      exact absurd (List.mem_append.mpr (Or.inr (List.mem_singleton.mpr rfl))) hn
  · have hxt' : x ≠ t := fun h => hxt h.symm
    have hev : eventsOf t (ReqEvent.lookup x :: eD ++ [ReqEvent.spawn x, ReqEvent.insert x]) =
        eventsOf t eD := by
      simp [eventsOf_cons, eventsOf_append, isEventOf_lookup_ne hxt',
        isEventOf_spawn_ne hxt', isEventOf_insert_ne hxt']
    refine ⟨?_, ?_, ?_⟩
    · intro h0
      rw [hev]
      exact p1 h0
    · intro hn hm
      have hm1 : t ∈ k1 := by
        rcases List.mem_append.mp hm with h | h
        · exact h
        · rw [List.mem_singleton] at h
          exact absurd h hxt
      obtain ⟨tail, hpat, hlo⟩ := p2 hn hm1
      exact ⟨tail, by rw [hev]; exact hpat, hlo⟩
    · intro hn
      have hn1 : t ∉ k1 := fun h => hn (List.mem_append.mpr (Or.inl h))
      rw [hev]
      exact p3 hn1

theorem makeDeps_keys_mono {f : Nat} {g : TargetGraph} {depth : Nat} :
    ∀ (ds : List TargetName) (s : MakeState) (hs : List Nat) (s' : MakeState),
      makeDepsWith (fun d s0 => makeTargetFuel f g d (depth + 1) s0) ds s = .ok (hs, s') →
      ∀ k ∈ cacheKeys s, k ∈ cacheKeys s' :=
  fun ds s hs s' h k hk => cacheKeys_mono (makeDepsWith_grows
    (fun d1 sa r1 hr1 => makeTargetFuel_grows f g d1 (depth + 1) sa r1 hr1) ds s _ h) hk

theorem makeDeps_pattern {f : Nat} {g : TargetGraph} {depth : Nat}
    (ihpat : ∀ (x : TargetName) (s : MakeState) (h : Nat) (s' : MakeState),
      CacheSafe g s → makeTargetFuel f g x (depth + 1) s = .ok (h, s') →
      ∃ e, s'.trace = s.trace ++ e ∧ TracePattern (cacheKeys s) (cacheKeys s') e) :
    ∀ (ds : List TargetName) (s : MakeState) (hs : List Nat) (s' : MakeState),
      CacheSafe g s →
      makeDepsWith (fun d s0 => makeTargetFuel f g d (depth + 1) s0) ds s = .ok (hs, s') →
      ∃ e, s'.trace = s.trace ++ e ∧ TracePattern (cacheKeys s) (cacheKeys s') e := by
  intro ds
  induction ds with
  | nil =>
    intro s hs s' hsafe h
    simp only [makeDepsWith] at h
    cases h
    exact ⟨[], by simp, tracePattern_nil _⟩
  | cons d0 rest ih =>
    intro s hs s' hsafe h
    simp only [makeDepsWith] at h
    split at h
    · exact absurd h (by simp)
    · rename_i h1 s1 hd0
      split at h
      · exact absurd h (by simp)
      · rename_i hs2 s2 hrest
        cases h
        obtain ⟨e1, he1, hp1⟩ := ihpat d0 s h1 s1 hsafe hd0
        have hsafe1 : CacheSafe g s1 := (makeTargetFuel_safe f g d0 (depth + 1) s).2 hsafe h1 s1 hd0
        obtain ⟨e2, he2, hp2⟩ := ih s1 _ _ hsafe1 hrest
        refine ⟨e1 ++ e2, by rw [he2, he1]; simp, ?_⟩
        exact tracePattern_comp hp1 hp2
          (fun t ht => cacheKeys_mono (makeTargetFuel_grows f g d0 (depth + 1) s _ hd0) ht)
          (fun t ht => makeDeps_keys_mono rest s1 _ _ hrest t ht)

theorem makeTargetFuel_pattern :
    ∀ (f : Nat) (g : TargetGraph) (x : TargetName) (depth : Nat) (s : MakeState)
      (h : Nat) (s' : MakeState),
      CacheSafe g s → makeTargetFuel f g x depth s = .ok (h, s') →
      ∃ e, s'.trace = s.trace ++ e ∧ TracePattern (cacheKeys s) (cacheKeys s') e := by
  intro f
  induction f with
  | zero => intro g x depth s h s' _ hok; exact absurd hok (by simp [makeTargetFuel])
  | succ f ih =>
    intro g x depth s h s' hsafe hok
    simp only [makeTargetFuel, makeTargetStep] at hok
    split at hok
    · rename_i h0 hl
      cases hok
      exact ⟨[.lookup x], rfl, tracePattern_hit (lookupCache_isSome_iff.mp ⟨_, hl⟩)⟩
    · rename_i hl
      split at hok
      · exact absurd hok (by simp)
      · rename_i dependencies hg
        split at hok
        · exact absurd hok (by simp)
        · rename_i depHandles s1 hdeps
          cases hok
          have hsafe0 : CacheSafe g { s with trace := s.trace ++ [.lookup x] } :=
            fun k hk => hsafe k hk
          obtain ⟨eD, heD, hpD⟩ := makeDeps_pattern
            (fun x0 s0 h0 s0' hs0 hh0 => ih g x0 (depth + 1) s0 h0 s0' hs0 hh0)
            dependencies _ _ _ hsafe0 hdeps
          have hfresh : x ∉ cacheKeys s1 :=
            makeDeps_fresh hsafe0 (lookupCache_eq_none_iff.mp hl) hg hdeps
          refine ⟨ReqEvent.lookup x :: eD ++ [ReqEvent.spawn x, ReqEvent.insert x], ?_, ?_⟩
          · show s1.trace ++ [ReqEvent.spawn x, ReqEvent.insert x] = _
            rw [heD]
            simp
          · have hmiss := tracePattern_miss (lookupCache_eq_none_iff.mp hl) hfresh hpD
            simpa [cacheKeys] using hmiss

theorem pattern_second_lookup {t : TargetName} {tail A B : List ReqEvent}
    (hlo : lookupsOnly t tail)
    (heq : ReqEvent.lookup t :: ReqEvent.spawn t :: ReqEvent.insert t :: tail =
      A ++ ReqEvent.lookup t :: B)
    (hmem : ReqEvent.lookup t ∈ A) :
    ReqEvent.insert t ∈ A := by
  cases A with
  | nil => exact absurd hmem (List.not_mem_nil _)
  | cons a0 A1 =>
    rw [List.cons_append] at heq
    injection heq with h0 heq1
    cases A1 with
    | nil =>
      rw [List.nil_append] at heq1
      injection heq1 with h1 heq2
      exact absurd h1 (by simp)
    | cons a1 A2 =>
      rw [List.cons_append] at heq1
      injection heq1 with h1 heq2
      cases A2 with
      | nil =>
        rw [List.nil_append] at heq2
        injection heq2 with h2 heq3
        exact absurd h2 (by simp)
      | cons a2 A3 =>
        rw [List.cons_append] at heq2
        injection heq2 with h2 heq3
        rw [← h2]
        exact List.mem_cons_of_mem _ (List.mem_cons_of_mem _ (List.mem_cons_self _ _))

/-- In any successful expansion from the empty state, a repeated cache lookup for a
target happens only after that target's handle was inserted into the cache. -/
theorem trace_second_lookup_after_insert {f : Nat} {g : TargetGraph} {x : TargetName}
    {h : Nat} {s' : MakeState}
    (hok : makeTargetFuel f g x 0 initState = .ok (h, s')) :
    ∀ a t b, s'.trace = a ++ ReqEvent.lookup t :: b → ReqEvent.lookup t ∈ a →
      ReqEvent.insert t ∈ a := by
  obtain ⟨e, he, hp⟩ := makeTargetFuel_pattern f g x 0 initState h s'
    (fun k hk => absurd hk (List.not_mem_nil k)) hok
  simp only [initState, List.nil_append] at he
  intro a t b heq hmem
  rw [he] at heq
  obtain ⟨p1, p2, p3⟩ := hp t
  have hcomp : eventsOf t e = eventsOf t a ++ ReqEvent.lookup t :: eventsOf t b := by
    rw [heq]
    simp [eventsOf_append, eventsOf_cons]
  have hmemf : ReqEvent.lookup t ∈ eventsOf t a :=
    List.mem_filter.mpr ⟨hmem, by simp⟩
  by_cases hks : t ∈ cacheKeys s'
  · obtain ⟨tail, hpat, hlo⟩ := p2 (List.not_mem_nil t) hks
    have hins : ReqEvent.insert t ∈ eventsOf t a :=
      pattern_second_lookup hlo (hpat.symm.trans hcomp) hmemf
    exact (List.mem_filter.mp hins).1
  · have h3 := p3 hks
    rw [hcomp] at h3
    simp at h3

@[simp] theorem setPhase_self (σ : TargetName → Phase) (t : TargetName) (p : Phase) :
    setPhase σ t p t = p := by simp [setPhase]

theorem setPhase_ne (σ : TargetName → Phase) (t : TargetName) (p : Phase) {x : TargetName}
    (h : x ≠ t) : setPhase σ t p x = σ x := by simp [setPhase, h]

@[simp] theorem startCount_nil (t : TargetName) : startCount t [] = 0 := rfl

theorem startCount_start_self (t : TargetName) (es : List SEvent) :
    startCount t (SEvent.recipeStart t :: es) = 1 + startCount t es := by simp [startCount]

theorem startCount_start_ne {u t : TargetName} (h : u ≠ t) (es : List SEvent) :
    startCount t (SEvent.recipeStart u :: es) = startCount t es := by simp [startCount, h]

@[simp] theorem startCount_complete (t u : TargetName) (st : Int) (es : List SEvent) :
    startCount t (SEvent.complete u st :: es) = startCount t es := rfl

theorem unit_eq_of_target_eq {units : List ExecUnit}
    (hnd : (units.map (fun u => u.target)).Nodup) :
    ∀ {u v : ExecUnit}, u ∈ units → v ∈ units → u.target = v.target → u = v := by
  induction units with
  | nil => intro u v hu _ _; exact absurd hu (List.not_mem_nil u)
  | cons w rest ih =>
    rw [List.map_cons, List.nodup_cons] at hnd
    intro u v hu hv ht
    rcases List.mem_cons.mp hu with rfl | hur
    · rcases List.mem_cons.mp hv with rfl | hvr
      · rfl
      · exfalso
        have : u.target ∈ rest.map (fun u => u.target) := by
          rw [ht]
          exact List.mem_map_of_mem _ hvr
        exact hnd.1 this
    · rcases List.mem_cons.mp hv with rfl | hvr
      · exfalso
        have : v.target ∈ rest.map (fun u => u.target) := by
          rw [← ht]
          exact List.mem_map_of_mem _ hur
        exact hnd.1 this
      · exact ih hnd.2 hur hvr ht

theorem SMInv_nodup_targets {g : TargetGraph} {s : MakeState} (hInv : SMInv g s) :
    (s.units.map (fun u => u.target)).Nodup := by
  obtain ⟨-, hnd, hcu, -, -, -, -, -⟩ := hInv
  unfold cacheKeys at hnd
  rw [hcu] at hnd
  simpa [List.map_map, Function.comp] using hnd

theorem unit_of_key {g : TargetGraph} {s : MakeState} (hInv : SMInv g s) {k : TargetName}
    (hk : k ∈ cacheKeys s) : ∃ u ∈ s.units, u.target = k := by
  obtain ⟨-, -, hcu, -, -, -, -, -⟩ := hInv
  unfold cacheKeys at hk
  rw [hcu] at hk
  simp only [List.map_map, List.mem_map, Function.comp] at hk
  obtain ⟨u, hu, hut⟩ := hk
  exact ⟨u, hu, hut⟩

theorem unit_deps_eq {g : TargetGraph} {s : MakeState} (hInv : SMInv g s) {u : ExecUnit}
    (hu : u ∈ s.units) : u.deps = depsOf g u.target := by
  obtain ⟨-, -, -, hug, -, -, -, -⟩ := hInv
  unfold depsOf
  rw [hug u hu]
  rfl

theorem SMInv_keys_closed {g : TargetGraph} {s : MakeState} (hInv : SMInv g s) :
    ∀ k ∈ cacheKeys s, ∀ d, dependsOn g k d → d ∈ cacheKeys s := by
  intro k hk d hd
  obtain ⟨u, hu, hut⟩ := unit_of_key hInv hk
  have hdm : d ∈ u.deps := by
    rw [unit_deps_eq hInv hu, hut]
    exact hd
  obtain ⟨-, -, -, -, hudc, -, -, -⟩ := hInv
  obtain ⟨h2, hl2⟩ := hudc u hu d hdm
  exact lookupCache_isSome_iff.mp ⟨h2, hl2⟩

theorem reaches_mem_keys {g : TargetGraph} {s : MakeState} (hInv : SMInv g s) :
    ∀ {a c : TargetName}, Reaches g a c → a ∈ cacheKeys s → c ∈ cacheKeys s := by
  intro a c h
  induction h with
  | refl => exact fun h => h
  | step hd hr ih => exact fun ha => ih (SMInv_keys_closed hInv _ ha _ hd)

theorem keys_subset_reaches {f : Nat} {g : TargetGraph} {x : TargetName} {h : Nat}
    {s' : MakeState} (hok : makeTargetFuel f g x 0 initState = .ok (h, s')) :
    ∀ k ∈ cacheKeys s', Reaches g x k := by
  intro k hk
  rcases makeTargetFuel_origin f g x 0 initState h s' hok k hk with h0 | h1
  · exact absurd h0 (List.not_mem_nil k)
  · exact h1

theorem exec_append_split {units : List ExecUnit} {σ σ'' : TargetName → Phase}
    {a b : List SEvent} (h : Exec units σ (a ++ b) σ'') :
    ∃ σ', Exec units σ a σ' ∧ Exec units σ' b σ'' := by
  induction a generalizing σ with
  | nil => exact ⟨σ, Exec.nil σ, h⟩
  | cons e es ih =>
    cases h with
    | cons hstep hrest =>
      obtain ⟨σ', h1, h2⟩ := ih hrest
      exact ⟨σ', Exec.cons hstep h1, h2⟩

theorem SchedStep.completed_mono {units : List ExecUnit} {σ σ' : TargetName → Phase}
    {e : SEvent} (h : SchedStep units σ e σ') {x : TargetName}
    (hx : σ x = .completed) : σ' x = .completed := by
  cases h with
  | start u hu hq hdeps =>
    by_cases hxu : x = u.target
    · rw [hxu] at hx
      rw [hx] at hq
      exact absurd hq (by simp)
    · rw [setPhase_ne _ _ _ hxu]
      exact hx
  | finish u hu hr st =>
    by_cases hxu : x = u.target
    · rw [hxu]
      simp
    · rw [setPhase_ne _ _ _ hxu]
      exact hx

theorem exec_completed_mono {units : List ExecUnit} {σ σ' : TargetName → Phase}
    {evs : List SEvent} (h : Exec units σ evs σ') {x : TargetName}
    (hx : σ x = .completed) : σ' x = .completed := by
  induction h with
  | nil _ => exact hx
  | cons hstep hrest ih => exact ih (hstep.completed_mono hx)

theorem exec_completed_event {units : List ExecUnit} {σ σ' : TargetName → Phase}
    {evs : List SEvent} (h : Exec units σ evs σ') :
    ∀ {x : TargetName}, σ' x = .completed →
      σ x = .completed ∨ ∃ st, SEvent.complete x st ∈ evs := by
  induction h with
  | nil _ => exact fun hx => Or.inl hx
  | cons hstep hrest ih =>
    intro x hx
    rcases ih hx with hmid | ⟨st, hst⟩
    · cases hstep with
      | start u hu hq hdeps =>
        by_cases hxu : x = u.target
        · rw [hxu, setPhase_self] at hmid
          exact absurd hmid (by simp)
        · rw [setPhase_ne _ _ _ hxu] at hmid
          exact Or.inl hmid
      | finish u hu hr st2 =>
        by_cases hxu : x = u.target
        · subst hxu
          exact Or.inr ⟨st2, List.mem_cons_self _ _⟩
        · rw [setPhase_ne _ _ _ hxu] at hmid
          exact Or.inl hmid
    · exact Or.inr ⟨st, List.mem_cons_of_mem _ hst⟩

/-- Once a unit has left `Queued` (its recipe started or finished), all of its
direct dependencies' units are completed. -/
def DepInv (units : List ExecUnit) (σ : TargetName → Phase) : Prop :=
  ∀ u ∈ units, σ u.target ≠ .queued → ∀ d ∈ u.deps, σ d = .completed

theorem SchedStep.depInv {units : List ExecUnit} {σ σ' : TargetName → Phase} {e : SEvent}
    (hnd : (units.map (fun u => u.target)).Nodup)
    (h : SchedStep units σ e σ') (hinv : DepInv units σ) : DepInv units σ' := by
  cases h with
  | start u hu hq hdeps =>
    intro v hv hvq d hd
    have hdone : σ d = Phase.completed → setPhase σ u.target Phase.running d = Phase.completed := by
      intro hdc
      by_cases hdu : d = u.target
      · rw [hdu] at hdc
        rw [hdc] at hq
        exact absurd hq (by simp)
      · rw [setPhase_ne _ _ _ hdu]
        exact hdc
    by_cases hvu : v.target = u.target
    · have hveq : v = u := unit_eq_of_target_eq hnd hv hu hvu
      subst hveq
      exact hdone (hdeps d hd)
    · rw [setPhase_ne _ _ _ hvu] at hvq
      exact hdone (hinv v hv hvq d hd)
  | finish u hu hr st =>
    intro v hv hvq d hd
    have hdone : σ d = Phase.completed → setPhase σ u.target Phase.completed d = Phase.completed := by
      intro hdc
      by_cases hdu : d = u.target
      · rw [hdu]
        simp
      · rw [setPhase_ne _ _ _ hdu]
        exact hdc
    by_cases hvu : v.target = u.target
    · have hveq : v = u := unit_eq_of_target_eq hnd hv hu hvu
      subst hveq
      have hvq0 : σ v.target ≠ Phase.queued := by
        rw [hr]
        simp
      exact hdone (hinv v hv hvq0 d hd)
    · rw [setPhase_ne _ _ _ hvu] at hvq
      exact hdone (hinv v hv hvq d hd)

theorem exec_depInv {units : List ExecUnit} {σ σ' : TargetName → Phase} {evs : List SEvent}
    (hnd : (units.map (fun u => u.target)).Nodup)
    (h : Exec units σ evs σ') (hinv : DepInv units σ) : DepInv units σ' := by
  induction h with
  | nil _ => exact hinv
  | cons hstep hrest ih => exact ih (hstep.depInv hnd hinv)

theorem allQueued_depInv (units : List ExecUnit) : DepInv units allQueued :=
  fun u hu hq => absurd rfl hq

/-- If the root's unit has completed, every unit in the root's transitive dependency
closure has completed. -/
theorem exec_closure_completed {g : TargetGraph} {s : MakeState} (hInv : SMInv g s)
    {evs : List SEvent} {σ : TargetName → Phase}
    (hex : Exec s.units allQueued evs σ) :
    ∀ {a c : TargetName}, Reaches g a c → a ∈ cacheKeys s → σ a = .completed →
      σ c = .completed := by
  have hdinv : DepInv s.units σ :=
    exec_depInv (SMInv_nodup_targets hInv) hex (allQueued_depInv s.units)
  intro a c h
  induction h with
  | refl => exact fun _ hc => hc
  | step hd hr ih =>
    rename_i a' b' c'
    intro ha hac
    obtain ⟨u, hu, hut⟩ := unit_of_key hInv ha
    have hbdep : b' ∈ u.deps := by
      rw [unit_deps_eq hInv hu, hut]
      exact hd
    have hb : σ b' = .completed := by
      refine hdinv u hu ?_ b' hbdep
      rw [hut, hac]
      simp
    exact ih (SMInv_keys_closed hInv _ ha _ hd) hb

theorem exec_startCount {units : List ExecUnit} {σ σ' : TargetName → Phase}
    {evs : List SEvent} (h : Exec units σ evs σ') :
    ∀ t, (σ t = .queued → startCount t evs ≤ 1) ∧
      (σ t ≠ .queued → startCount t evs = 0) := by
  induction h with
  | nil _ => intro t; exact ⟨fun _ => by simp, fun _ => by simp⟩
  | cons hstep hrest ih =>
    intro t
    cases hstep with
    | start u hu hq hdeps =>
      by_cases hut : u.target = t
      · subst hut
        refine ⟨fun hqt => ?_, fun hnq => absurd hq hnq⟩
        have h2 : startCount u.target _ = 0 := (ih u.target).2 (by simp)
        rw [startCount_start_self, h2]
      · refine ⟨fun hqt => ?_, fun hnq => ?_⟩
        · rw [startCount_start_ne hut]
          exact (ih t).1 (by rw [setPhase_ne _ _ _ (fun hh => hut hh.symm)]; exact hqt)
        · rw [startCount_start_ne hut]
          exact (ih t).2 (by rw [setPhase_ne _ _ _ (fun hh => hut hh.symm)]; exact hnq)
    | finish u hu hr st =>
      rw [startCount_complete]
      by_cases hut : t = u.target
      · subst hut
        refine ⟨fun hqt => ?_, fun hnq => ?_⟩
        · rw [hqt] at hr
          exact absurd hr (by simp)
        · exact (ih u.target).2 (by simp)
      · refine ⟨fun hqt => (ih t).1 (by rw [setPhase_ne _ _ _ hut]; exact hqt),
          fun hnq => (ih t).2 (by rw [setPhase_ne _ _ _ hut]; exact hnq)⟩

theorem exec_startCount_pos {units : List ExecUnit} {σ σ' : TargetName → Phase}
    {evs : List SEvent} (h : Exec units σ evs σ') :
    ∀ {t}, σ t = .queued → σ' t ≠ .queued → 1 ≤ startCount t evs := by
  induction h with
  | nil _ => intro t hq hnq; exact absurd hq hnq
  | cons hstep hrest ih =>
    intro t hq hnq
    cases hstep with
    | start u hu hq0 hdeps =>
      by_cases hut : u.target = t
      · subst hut
        rw [startCount_start_self]
        exact Nat.le_add_right 1 _
      · rw [startCount_start_ne hut]
        refine ih ?_ hnq
        rw [setPhase_ne _ _ _ (fun hh => hut hh.symm)]
        exact hq
    | finish u hu hr st =>
      rw [startCount_complete]
      by_cases hut : t = u.target
      · subst hut
        rw [hq] at hr
        exact absurd hr (by simp)
      · refine ih ?_ hnq
        rw [setPhase_ne _ _ _ hut]
        exact hq

theorem SchedStep.mapStatus {units : List ExecUnit} {σ σ' : TargetName → Phase} {e : SEvent}
    (φ : Int → Int) (h : SchedStep units σ e σ') :
    SchedStep units σ (mapStatus φ e) σ' := by
  cases h with
  | start u hu hq hdeps => exact SchedStep.start σ u hu hq hdeps
  | finish u hu hr st => exact SchedStep.finish σ u hu hr (φ st)

theorem exec_mapStatus {units : List ExecUnit} {σ σ' : TargetName → Phase}
    {evs : List SEvent} (φ : Int → Int) (h : Exec units σ evs σ') :
    Exec units σ (evs.map (mapStatus φ)) σ' := by
  induction h with
  | nil σ0 => exact Exec.nil σ0
  | cons hstep hrest ih => exact Exec.cons (hstep.mapStatus φ) ih

/-- A request for an already-cached target returns the cached shared handle,
changes nothing but the trace, and creates no execution unit. -/
theorem makeTargetFuel_hit {f : Nat} {g : TargetGraph} {x : TargetName} {depth : Nat}
    {s : MakeState} {h : Nat} (hl : lookupCache s.cache x = some h) :
    makeTargetFuel (f + 1) g x depth s =
      .ok (h, { s with trace := s.trace ++ [ReqEvent.lookup x] }) := by
  simp only [makeTargetFuel, makeTargetStep, hl]

/-- The diamond graph: `A` depends on `B` and `C`, which share the dependency `D`. -/
def gDiamond : TargetGraph :=
  [(tn "A", [tn "B", tn "C"]), (tn "B", [tn "D"]), (tn "C", [tn "D"]), (tn "D", [])]

/-- A two-target chain: `A` depends on `B`. -/
def gAB : TargetGraph := [(tn "A", [tn "B"]), (tn "B", [])]

/-- A self-cycle: `A` depends on itself. -/
def gSelf : TargetGraph := [(tn "A", [tn "A"])]

/-- The spec's `--print-graph` example graph. -/
def gABC : TargetGraph := [(tn "A", [tn "B", tn "C"]), (tn "B", []), (tn "C", [])]

/-- The unit spawned for `B` when expanding `gAB` from `A`. -/
def uB : ExecUnit := ⟨0, tn "B", [], []⟩

/-- The unit spawned for `A` when expanding `gAB` from `A`. -/
def uA : ExecUnit := ⟨1, tn "A", [tn "B"], [0]⟩

/-- A complete concurrent execution of the two units of `gAB`. -/
def evsAB : List SEvent :=
  [.recipeStart (tn "B"), .complete (tn "B") 0, .recipeStart (tn "A"), .complete (tn "A") 0]

def phAB1 : TargetName → Phase := setPhase allQueued (tn "B") .running
def phAB2 : TargetName → Phase := setPhase phAB1 (tn "B") .completed
def phAB3 : TargetName → Phase := setPhase phAB2 (tn "A") .running
def phAB4 : TargetName → Phase := setPhase phAB3 (tn "A") .completed

theorem execAB : Exec [uB, uA] allQueued evsAB phAB4 :=
  Exec.cons (SchedStep.start allQueued uB (by decide) rfl
      (fun d hd => absurd hd (List.not_mem_nil d)))
    (Exec.cons (SchedStep.finish phAB1 uB (by decide) (by decide) 0)
      (Exec.cons (SchedStep.start phAB2 uA (by decide) (by decide) (by decide))
        (Exec.cons (SchedStep.finish phAB3 uA (by decide) (by decide) 0)
          (Exec.nil phAB4))))

/-- Sanity: the expansion of `gAB` spawns exactly the units `uB`, `uA`, in order. -/
theorem sanity_gAB_units :
    (okState (makeTargetFuel 3 gAB (tn "A") 0 initState)).units = [uB, uA] := by decide

/-- Sanity: the requester-thread trace of `gAB`'s expansion. -/
theorem sanity_gAB_trace :
    (okState (makeTargetFuel 3 gAB (tn "A") 0 initState)).trace =
      [ReqEvent.lookup (tn "A"), ReqEvent.lookup (tn "B"), ReqEvent.spawn (tn "B"),
        ReqEvent.insert (tn "B"), ReqEvent.spawn (tn "A"), ReqEvent.insert (tn "A")] := by decide

/-- Sanity: the requester-thread trace of the diamond's expansion; the shared
target `D` is looked up twice but spawned and inserted once. -/
theorem sanity_gDiamond_trace :
    (okState (makeTargetFuel 6 gDiamond (tn "A") 0 initState)).trace =
      [ReqEvent.lookup (tn "A"), ReqEvent.lookup (tn "B"), ReqEvent.lookup (tn "D"),
        ReqEvent.spawn (tn "D"), ReqEvent.insert (tn "D"), ReqEvent.spawn (tn "B"),
        ReqEvent.insert (tn "B"), ReqEvent.lookup (tn "C"), ReqEvent.lookup (tn "D"),
        ReqEvent.spawn (tn "C"), ReqEvent.insert (tn "C"), ReqEvent.spawn (tn "A"),
        ReqEvent.insert (tn "A")] := by decide

/-- C1: over any build whose expansion completes, a dependency target shared by two
or more dependents is handled exactly once: (a) at most one execution unit is ever
constructed per target name (the unit targets are duplicate-free); (b) every
requester of an already-registered name — at any fuel, any depth, from any later
state whose cache extends this one — receives the identical cached completion
handle, and the request creates no unit and changes nothing but the trace; (c) in
any concurrent execution of the spawned units, each target's recipe starts at most
once, and exactly once for every target in the root's closure when the root
completes. -/
theorem c1_shared_dependency_built_once (f : Nat) (g : TargetGraph) (r : TargetName)
    (h : Nat) (s : MakeState)
    (hs : makeTargetFuel f g r 0 initState = .ok (h, s)) :
    ((s.units.map (fun u => u.target)).Nodup) ∧
    (∀ x hx, lookupCache s.cache x = some hx →
      ∀ (f2 depth : Nat) (s2 : MakeState), (∃ ext, s2.cache = s.cache ++ ext) →
        makeTargetFuel (f2 + 1) g x depth s2 =
          .ok (hx, { s2 with trace := s2.trace ++ [ReqEvent.lookup x] })) ∧
    (∀ evs σ, Exec s.units allQueued evs σ →
      (∀ t, startCount t evs ≤ 1) ∧
      (σ r = .completed → ∀ t, Reaches g r t → startCount t evs = 1)) := by
  have hInv : SMInv g s :=
    makeTargetFuel_SMInv f g r 0 initState h s (SMInv_initState g) hs
  refine ⟨SMInv_nodup_targets hInv, ?_, ?_⟩
  · intro x hx hlx f2 depth s2 hext
    obtain ⟨ext, hext⟩ := hext
    have hl2 : lookupCache s2.cache x = some hx := by
      rw [hext]
      exact lookupCache_append_some hlx ext
    exact makeTargetFuel_hit hl2
  · intro evs σ hex
    refine ⟨fun t => (exec_startCount hex t).1 rfl, ?_⟩
    intro hroot t hreach
    have hmem : t ∈ cacheKeys s := reaches_mem_keys hInv hreach (makeTargetFuel_mem hs)
    have hc : σ t = .completed :=
      exec_closure_completed hInv hex hreach (makeTargetFuel_mem hs) hroot
    refine Nat.le_antisymm ((exec_startCount hex t).1 rfl) ?_
    refine exec_startCount_pos hex rfl ?_
    rw [hc]
    simp

/-- Witness for C1, on the diamond graph `A → B,C → D`: the expansion from `A`
succeeds and the spawned unit targets are duplicate-free (so the shared target `D`
got one unit). -/
theorem c1_witness :
    (((okState (makeTargetFuel 6 gDiamond (tn "A") 0 initState)).units.map
      (fun u => u.target)).Nodup) :=
  (c1_shared_dependency_built_once 6 gDiamond (tn "A")
    (okHandle (makeTargetFuel 6 gDiamond (tn "A") 0 initState))
    (okState (makeTargetFuel 6 gDiamond (tn "A") 0 initState)) rfl).1

/-- C2: in any concurrent execution of the units of a completed expansion, whenever
target `t`'s recipe invocation starts, every direct dependency of `t`'s unit has
already completed: a completion event for each dependency precedes the start event
in the trace, and in the scheduler state at that moment every dependency is
`Completed` (hence none is still Queued or Running). -/
theorem c2_recipe_starts_after_deps_complete (f : Nat) (g : TargetGraph) (r : TargetName)
    (h : Nat) (s : MakeState)
    (hs : makeTargetFuel f g r 0 initState = .ok (h, s)) :
    ∀ evs σ, Exec s.units allQueued evs σ →
      ∀ a t b, evs = a ++ SEvent.recipeStart t :: b →
        ∀ u ∈ s.units, u.target = t →
          (∀ d ∈ u.deps, ∃ st, SEvent.complete d st ∈ a) ∧
          (∃ σa, Exec s.units allQueued a σa ∧ ∀ d ∈ u.deps, σa d = .completed) := by
  have hInv : SMInv g s :=
    makeTargetFuel_SMInv f g r 0 initState h s (SMInv_initState g) hs
  have hnd := SMInv_nodup_targets hInv
  intro evs σ hex a t b hsplit u hu hut
  subst hsplit
  obtain ⟨σa, hexa, hexrest⟩ := exec_append_split hex
  cases hexrest with
  | cons hstep hrest =>
    cases hstep with
    | start u' hu' hq hdeps =>
      have hueq : u = u' := unit_eq_of_target_eq hnd hu hu' hut
      subst hueq
      constructor
      · intro d hd
        rcases exec_completed_event hexa (hdeps d hd) with h0 | hev
        · exact absurd h0 (by simp [allQueued])
        · exact hev
      · exact ⟨σa, hexa, hdeps⟩

/-- Witness for C2, on `gAB`: in the concrete execution `start B, finish B, start A,
finish A`, the unit for `A` sees a completion event for its dependency `B` among the
events preceding `recipeStart A`. -/
theorem c2_witness :
    ∃ st, SEvent.complete (tn "B") st ∈
      [SEvent.recipeStart (tn "B"), SEvent.complete (tn "B") 0] :=
  (c2_recipe_starts_after_deps_complete 3 gAB (tn "A")
      (okHandle (makeTargetFuel 3 gAB (tn "A") 0 initState))
      (okState (makeTargetFuel 3 gAB (tn "A") 0 initState)) rfl
      evsAB phAB4 execAB
      [SEvent.recipeStart (tn "B"), SEvent.complete (tn "B") 0] (tn "A")
      [SEvent.complete (tn "A") 0] rfl
      uA (by decide) rfl).1 (tn "B") (by decide)

/-- C3: on a well-formed graph (every referenced dependency is itself a key), if the
requested root lies on or above a dependency cycle, the expansion never completes:
for every fuel bound it exhausts its fuel — the build's recursion diverges, never
terminating with success or with a clean error. -/
theorem c3_cyclic_graph_hangs (g : TargetGraph) (r : TargetName)
    (hcl : Closed g) (hrc : ReachesCycle g r) :
    ∀ f : Nat, makeTargetFuel f g r 0 initState = .error .outOfFuel :=
  fun f => makeTargetFuel_outOfFuel hcl f r 0 initState
    (fun k hk => absurd hk (List.not_mem_nil k)) hrc

/-- Witness for C3, on the self-cycle `A → A`: the build of `A` runs out of any
amount of fuel. -/
theorem c3_witness :
    makeTargetFuel 97 gSelf (tn "A") 0 initState = .error .outOfFuel :=
  c3_cyclic_graph_hangs gSelf (tn "A") (by decide)
    ⟨tn "A", Reaches.refl (tn "A"), ⟨tn "A", by decide, Reaches.refl (tn "A")⟩⟩ 97

/-- C4: in every completed expansion, (a) the spawn of a newly seen target's
concurrent body is immediately followed — atomically, with no intervening requester
event — by the registration of its completion handle in the cache; and (b)
registration happens before any other requester re-enters the cache-lookup step for
the same name: any lookup of a name that already has an earlier lookup is preceded
by that name's cache insertion. -/
theorem c4_registration_before_reentry (f : Nat) (g : TargetGraph) (r : TargetName)
    (h : Nat) (s : MakeState)
    (hs : makeTargetFuel f g r 0 initState = .ok (h, s)) :
    (∀ a t b, s.trace = a ++ ReqEvent.spawn t :: b → ∃ b', b = ReqEvent.insert t :: b') ∧
    (∀ a t b, s.trace = a ++ ReqEvent.lookup t :: b → ReqEvent.lookup t ∈ a →
      ReqEvent.insert t ∈ a) := by
  have hInv : SMInv g s :=
    makeTargetFuel_SMInv f g r 0 initState h s (SMInv_initState g) hs
  exact ⟨hInv.2.2.2.2.2.2.1, trace_second_lookup_after_insert hs⟩

/-- Witness for C4, on the diamond graph: the second lookup of the shared target `D`
(during `C`'s expansion) is preceded in the trace by `D`'s cache insertion. -/
theorem c4_witness :
    ReqEvent.insert (tn "D") ∈
      [ReqEvent.lookup (tn "A"), ReqEvent.lookup (tn "B"), ReqEvent.lookup (tn "D"),
        ReqEvent.spawn (tn "D"), ReqEvent.insert (tn "D"), ReqEvent.spawn (tn "B"),
        ReqEvent.insert (tn "B"), ReqEvent.lookup (tn "C")] :=
  (c4_registration_before_reentry 6 gDiamond (tn "A")
      (okHandle (makeTargetFuel 6 gDiamond (tn "A") 0 initState))
      (okState (makeTargetFuel 6 gDiamond (tn "A") 0 initState)) rfl).2
    [ReqEvent.lookup (tn "A"), ReqEvent.lookup (tn "B"), ReqEvent.lookup (tn "D"),
      ReqEvent.spawn (tn "D"), ReqEvent.insert (tn "D"), ReqEvent.spawn (tn "B"),
      ReqEvent.insert (tn "B"), ReqEvent.lookup (tn "C")]
    (tn "D")
    [ReqEvent.spawn (tn "C"), ReqEvent.insert (tn "C"), ReqEvent.spawn (tn "A"),
      ReqEvent.insert (tn "A")]
    (by decide) (by decide)

/-- C5: when the requested root's expansion completes, `main` reports exit 0 with
`targetsBuilt = futures.len()`; the cache keys are exactly the root's transitive
dependency closure, without duplicates, so the reported count equals the number of
distinct targets in the closure (root included: it equals the length of any
duplicate-free enumeration of the closure); and awaiting the root's handle
(`block_on`) cannot end early: in any concurrent execution in which the root's unit
has completed, every target of the closure has completed — never a partial result. -/
theorem c5_build_blocks_until_closure_done (fuel : Nat) (g : TargetGraph) (nm : String)
    (opts : Options) (h : Nat) (s : MakeState)
    (hpg : opts.print_graph = false) (htg : opts.target = some nm)
    (hck : containsKey g ⟨nm⟩ = true)
    (hs : makeTargetFuel fuel g ⟨nm⟩ 0 initState = .ok (h, s)) :
    (runMain fuel g opts =
      { exitCode := 0, stderrLines := [], printedGraph := none,
        unitsCreated := s.units, targetsBuilt := some s.cache.length }) ∧
    (∀ k, k ∈ cacheKeys s ↔ Reaches g ⟨nm⟩ k) ∧
    (cacheKeys s).Nodup ∧
    (∀ l : List TargetName, l.Nodup → (∀ k, k ∈ l ↔ Reaches g ⟨nm⟩ k) →
      s.cache.length = l.length) ∧
    (∀ evs σ, Exec s.units allQueued evs σ → σ ⟨nm⟩ = .completed →
      ∀ k, Reaches g ⟨nm⟩ k → σ k = .completed) := by
  have hInv : SMInv g s :=
    makeTargetFuel_SMInv fuel g ⟨nm⟩ 0 initState h s (SMInv_initState g) hs
  have hiff : ∀ k, k ∈ cacheKeys s ↔ Reaches g ⟨nm⟩ k := fun k =>
    ⟨fun hk => keys_subset_reaches hs k hk,
     fun hr => reaches_mem_keys hInv hr (makeTargetFuel_mem hs)⟩
  refine ⟨?_, hiff, hInv.2.1, ?_, ?_⟩
  · cases g with
    | nil => simp [containsKey, getDeps] at hck
    | cons p rest =>
      obtain ⟨n0, d0⟩ := p
      simp [runMain, hpg, htg, hck, hs]
  · intro l hlnd hliff
    have hperm : List.Perm (cacheKeys s) l :=
      (List.perm_ext_iff_of_nodup hInv.2.1 hlnd).mpr
        (fun a => (hiff a).trans ((hliff a).symm))
    calc s.cache.length = (cacheKeys s).length := (List.length_map _ _).symm
      _ = l.length := hperm.length_eq
  · intro evs σ hex hroot k hreach
    exact exec_closure_completed hInv hex hreach (makeTargetFuel_mem hs) hroot

/-- Witness for C5: building `A` over `gAB` reports exit 0 and the
`futures.len()` count of the final state. -/
theorem c5_witness :
    runMain 3 gAB { makefile_path := none, target := some "A", print_graph := false } =
      { exitCode := 0, stderrLines := [], printedGraph := none,
        unitsCreated := (okState (makeTargetFuel 3 gAB ⟨"A"⟩ 0 initState)).units,
        targetsBuilt := some (okState (makeTargetFuel 3 gAB ⟨"A"⟩ 0 initState)).cache.length } :=
  (c5_build_blocks_until_closure_done 3 gAB "A"
    { makefile_path := none, target := some "A", print_graph := false }
    (okHandle (makeTargetFuel 3 gAB ⟨"A"⟩ 0 initState))
    (okState (makeTargetFuel 3 gAB ⟨"A"⟩ 0 initState))
    rfl rfl (by decide) rfl).1

/-- C6: an explicitly requested root target that is absent from the parsed graph
makes the process exit with code 1 and a diagnostic on the error stream, with zero
execution units created and hence zero recipe invocations, and no built-count
reported. -/
theorem c6_unknown_target_exits_one (fuel : Nat) (g : TargetGraph) (opts : Options)
    (t : String)
    (hpg : opts.print_graph = false) (htg : opts.target = some t)
    (habs : containsKey g ⟨t⟩ = false) :
    (runMain fuel g opts).exitCode = 1 ∧ (runMain fuel g opts).stderrLines ≠ [] ∧
      (runMain fuel g opts).unitsCreated = [] ∧
      (runMain fuel g opts).targetsBuilt = none := by
  cases g with
  | nil => simp [runMain, hpg]
  | cons p rest =>
    obtain ⟨n0, d0⟩ := p
    simp [runMain, hpg, htg, habs]

/-- Witness for C6: requesting the missing target `Z` over `gAB` exits 1 with a
diagnostic and no units. -/
theorem c6_witness :
    (runMain 4 gAB { makefile_path := none, target := some "Z", print_graph := false }).exitCode = 1 ∧
    (runMain 4 gAB { makefile_path := none, target := some "Z", print_graph := false }).stderrLines ≠ [] ∧
    (runMain 4 gAB { makefile_path := none, target := some "Z", print_graph := false }).unitsCreated = [] ∧
    (runMain 4 gAB { makefile_path := none, target := some "Z", print_graph := false }).targetsBuilt = none :=
  c6_unknown_target_exits_one 4 gAB
    { makefile_path := none, target := some "Z", print_graph := false } "Z" rfl rfl (by decide)

/-- C7: the recipe executor checks only the success of launching the external
process: (a) for launched processes the result is identical whatever the process's
exit status and output — a recipe that exits non-zero is not surfaced as a failure;
(b) a launched recipe always yields a successful executor result; (c) a failed
launch is fatal (the `expect` panic); (d) the scheduler places no constraint on
recipe exit statuses: any valid concurrent execution remains valid with every
status rewritten arbitrarily, so statuses affect neither dependents nor the
aggregate result. -/
theorem c7_exit_status_never_inspected :
    (∀ (deps : List TargetName) (mk : String) (t : TargetName) (o1 o2 : ProcessOutput),
      make_individual_dependency (fun _ => some o1) deps mk t =
        make_individual_dependency (fun _ => some o2) deps mk t) ∧
    (∀ (deps : List TargetName) (mk : String) (t : TargetName) (o : ProcessOutput),
      (make_individual_dependency (fun _ => some o) deps mk t).isSome = true) ∧
    (∀ (deps : List TargetName) (mk : String) (t : TargetName),
      make_individual_dependency (fun _ => none) deps mk t = none) ∧
    (∀ (units : List ExecUnit) (σ σ' : TargetName → Phase) (evs : List SEvent)
      (φ : Int → Int), Exec units σ evs σ' → Exec units σ (evs.map (mapStatus φ)) σ') := by
  refine ⟨fun deps mk t o1 o2 => rfl, fun deps mk t o => rfl, fun deps mk t => rfl, ?_⟩
  intro units σ σ' evs φ hex
  exact exec_mapStatus φ hex

/-- Witness for C7: the concrete execution of `gAB`'s units stays valid after every
recipe exit status is bumped by one. -/
theorem c7_witness :
    Exec [uB, uA] allQueued (evsAB.map (mapStatus (fun st => st + 1))) phAB4 :=
  c7_exit_status_never_inspected.2.2.2 [uB, uA] allQueued phAB4 evsAB (fun st => st + 1) execAB

/-- C8: with `--print-graph`, `main` prints the graph serialized as a JSON object
whose keys are exactly the graph's target names in order and whose values are the
ordered arrays of their dependency names, then exits 0 having created no execution
unit and invoked no recipe. -/
theorem c8_print_graph_json (fuel : Nat) (g : TargetGraph) (opts : Options)
    (hpg : opts.print_graph = true) :
    runMain fuel g opts =
      { exitCode := 0, stderrLines := [],
        printedGraph := some (Json.obj (g.map (fun p =>
          (p.1.name, Json.arr (p.2.map (fun d => Json.str d.name)))))),
        unitsCreated := [], targetsBuilt := none } := by
  simp [runMain, hpg, graphJson]

/-- Witness for C8: on the spec's example graph, exactly the keys `A`, `B`, `C`
with values `["B","C"]`, `[]`, `[]` are printed, with exit code 0 and no units. -/
theorem c8_witness :
    runMain 1 gABC { makefile_path := none, target := none, print_graph := true } =
      { exitCode := 0, stderrLines := [],
        printedGraph := some (Json.obj
          [("A", Json.arr [Json.str "B", Json.str "C"]),
           ("B", Json.arr []), ("C", Json.arr [])]),
        unitsCreated := [], targetsBuilt := none } := by
  rw [c8_print_graph_json 1 gABC
    { makefile_path := none, target := none, print_graph := true } rfl]
  rfl

/-- C9: in every completed expansion, whenever a target's handle is inserted into
the cache, every one of its direct dependencies has already been inserted (a handle
for each dependency is already in the cache), and the dependencies were requested
(looked up) in their declared order before the insertion. -/
theorem c9_deps_requested_before_registration (f : Nat) (g : TargetGraph)
    (r : TargetName) (h : Nat) (s : MakeState)
    (hs : makeTargetFuel f g r 0 initState = .ok (h, s)) :
    ∀ a t b, s.trace = a ++ ReqEvent.insert t :: b →
      (∀ d ∈ depsOf g t, ReqEvent.insert d ∈ a) ∧
      List.Sublist ((depsOf g t).map ReqEvent.lookup) a := by
  have hInv : SMInv g s :=
    makeTargetFuel_SMInv f g r 0 initState h s (SMInv_initState g) hs
  exact hInv.2.2.2.2.2.2.2

/-- Witness for C9: when `A`'s handle is inserted at the end of `gAB`'s expansion,
its dependency `B` has already been inserted. -/
theorem c9_witness :
    ReqEvent.insert (tn "B") ∈
      [ReqEvent.lookup (tn "A"), ReqEvent.lookup (tn "B"), ReqEvent.spawn (tn "B"),
        ReqEvent.insert (tn "B"), ReqEvent.spawn (tn "A")] :=
  (c9_deps_requested_before_registration 3 gAB (tn "A")
      (okHandle (makeTargetFuel 3 gAB (tn "A") 0 initState))
      (okState (makeTargetFuel 3 gAB (tn "A") 0 initState)) rfl
      [ReqEvent.lookup (tn "A"), ReqEvent.lookup (tn "B"), ReqEvent.spawn (tn "B"),
        ReqEvent.insert (tn "B"), ReqEvent.spawn (tn "A")]
      (tn "A") [] (by decide)).1 (tn "B") (by decide)

/-- C10: every recipe invocation runs the command `make` with the argument vector
exactly `["-f", makefile_path, target]` followed by the pair `"-o" dep` for each
direct dependency in declared graph order, so each dependency name appears exactly
once prefixed by `-o` (per occurrence in the dependency list). -/
theorem c10_make_argument_vector (spawner : Invocation → Option ProcessOutput)
    (dependencies : List TargetName) (makefile_path : String) (target_name : TargetName) :
    make_individual_dependency spawner dependencies makefile_path target_name =
      Option.map (fun _ => Invocation.mk "make"
          (["-f", makefile_path, target_name.name] ++
            dependencies.flatMap (fun d => ["-o", d.name])))
        (spawner (Invocation.mk "make"
          (["-f", makefile_path, target_name.name] ++
            dependencies.flatMap (fun d => ["-o", d.name])))) := by
  have hargs : ∀ (ds : List TargetName) (init : List String),
      ds.foldl (fun acc d => acc ++ ["-o", d.name]) init =
        init ++ ds.flatMap (fun d => ["-o", d.name]) := by
    intro ds
    induction ds with
    | nil => intro init; simp
    | cons d rest ih =>
      intro init
      rw [List.foldl_cons, ih, List.flatMap_cons]
      simp
  cases hsp : spawner (Invocation.mk "make"
      (["-f", makefile_path, target_name.name] ++
        dependencies.flatMap (fun d => ["-o", d.name]))) with
  | none => simp only [make_individual_dependency, hargs, hsp, Option.map_none']
  | some o => simp only [make_individual_dependency, hargs, hsp, Option.map_some']
